import Mathlib

/-!
A shallow embedding of the demand-vs-inventory reconciliation engine of
`src/app.py` (Maquila-vs-SSE): identifier mapping, balance-pool
initialization, atomic order evaluation, reporting projections, and the
FIFO allocator of engine B (which the specification describes but which has
no source file in the repository, so it is modelled from the specification).

Modelling conventions: quantities are exact rationals (the pandas floats
obtained from `to_numeric(...).fillna(0)`); ship dates are `Option Int` day
numbers with `none` standing for `NaT`; the availability dictionary
`avail_dict` is an insertion-ordered association list with Python-dict
update semantics (update in place, append new keys at the end); the
diagnostic note strings of the source are abstracted into the inductive
type `Nota`, with the numeric rendering inside the message replaced by the
exact rational it renders.  `sort_values(..., kind="mergesort")` is a
stable sort by the given column keys with `NaT` sorting last; it is
modelled by a stable insertion sort over the same lexicographic key.
-/

namespace MaquilaSSE

attribute [local semireducible] Rat.add Rat.sub Rat.mul

/-! ### Generic list machinery: stable sort, first-occurrence dedup -/

/-- Stable insertion of `x` into `l`: `x` is placed before the first element
`y` with `le x y`, so equal-key elements keep their original relative order. -/
def sinsert (le : α → α → Bool) (x : α) : List α → List α
  | [] => [x]
  | y :: ys => if le x y then x :: y :: ys else y :: sinsert le x ys

/-- Stable insertion sort; extensionally equal to any stable sort (such as
pandas' `kind="mergesort"`) for a total transitive `le`. -/
def ssort (le : α → α → Bool) : List α → List α
  | [] => []
  | x :: xs => sinsert le x (ssort le xs)

/-- Worker of `firstDedup`: drop the elements already seen, keep the first
occurrence of each new element. -/
def firstDedupAux [BEq α] (seen : List α) : List α → List α
  | [] => []
  | x :: xs =>
    if seen.contains x then firstDedupAux seen xs
    else x :: firstDedupAux (x :: seen) xs

/-- Deduplication keeping the first occurrence of each element, as
`pandas.Series.drop_duplicates` does. -/
def firstDedup [BEq α] (l : List α) : List α := firstDedupAux [] l

/-! ### Sort keys

`sort_values(["EstShip", "Sales Order", "Custom"])` compares the date
column with `NaT` last and compares strings by code points, as Python
does.  The comparisons are written as explicitly computable Booleans. -/

/-- Strict code-point-lexicographic comparison of character lists, the
order Python uses on strings. -/
def clLt : List Char → List Char → Bool
  | [], [] => false
  | [], _ :: _ => true
  | _ :: _, [] => false
  | a :: as, b :: bs =>
    if a.toNat < b.toNat then true
    else if b.toNat < a.toNat then false
    else clLt as bs

/-- Non-strict code-point-lexicographic comparison of character lists. -/
def clLE : List Char → List Char → Bool
  | [], _ => true
  | _ :: _, [] => false
  | a :: as, b :: bs =>
    if a.toNat < b.toNat then true
    else if b.toNat < a.toNat then false
    else clLE as bs

/-- Strict string comparison (Python `<` on strings). -/
def strLt (a b : String) : Bool := clLt a.data b.data

/-- Non-strict string comparison (Python `<=` on strings). -/
def strLE (a b : String) : Bool := clLE a.data b.data

/-- Strict date comparison with `NaT` (`none`) sorting strictly last, as
pandas `sort_values` places missing values. -/
def dkLt : Option Int → Option Int → Bool
  | some x, some y => decide (x < y)
  | some _, none => true
  | none, _ => false

/-! ### Data model -/

/-- A raw ZCO41 / COOIS row after column renaming: `Qty` before
`to_numeric(...).fillna(0)` (`none` is a non-numeric cell), the parsed
`EstShip` (`none` is `NaT`), `Sales Order`, and the original `Custom`
identifier. -/
structure RawRow where
  rawQty : Option ℚ
  estShip : Option Int
  salesOrder : String
  custom : String
deriving DecidableEq, Repr

/-- A raw MB52 row after column renaming: `OpenQty` before coercion and the
`Non Custom` identifier. -/
structure MB52Row where
  rawQty : Option ℚ
  nonCustom : String
deriving DecidableEq, Repr

/-- A prepared demand line as produced by `prep_zco41` / `prep_coois`:
coerced quantity, parsed ship date, sales order, original `Custom`
identifier, and the mapped `Non Custom` identifier (`none` when the
cross-reference lookup failed). -/
structure ZcoLine where
  qty : ℚ
  estShip : Option Int
  salesOrder : String
  custom : String
  nonCustom : Option String
deriving DecidableEq, Repr

/-- The diagnostic note attached to a line check; the numeric rendering in
the source's message strings is abstracted to the exact rational. -/
inductive Nota where
  | sinMapeo
  | suficiente
  | noSuficiente (falt : ℚ)
deriving DecidableEq, Repr

/-- One row of `orders_out`: `Status` is `true` for `"PASAR"` and `false`
for `"NO PASAR"`. -/
structure OrderOut where
  salesOrder : String
  estShipMin : Option Int
  totalLineas : Nat
  status : Bool
deriving DecidableEq, Repr

/-- One row of `lines_out`: `ok` is `true` for `"OK"` and `false` for
`"Insuficiente"`. -/
structure LineOut where
  salesOrder : String
  estShip : Option Int
  custom : String
  nonCustom : Option String
  qty : ℚ
  nota : Nota
  shortage : ℚ
  ok : Bool
deriving DecidableEq, Repr

/-- The generic lexicographic comparison on the key triple
`(EstShip, Sales Order, Custom)` used by `zco_sorted =
zco_lines.sort_values(["EstShip", "Sales Order", "Custom"],
kind="mergesort")` and by `lines_df.sort_values(...)`. -/
def keyLE (e1 : Option Int) (s1 c1 : String) (e2 : Option Int) (s2 c2 : String) : Bool :=
  dkLt e1 e2 ||
    (e1 == e2 && (strLt s1 s2 || (s1 == s2 && strLE c1 c2)))

/-- Boolean comparison used for the stable sort of demand lines. -/
def lineLE (a b : ZcoLine) : Bool :=
  keyLE a.estShip a.salesOrder a.custom b.estShip b.salesOrder b.custom

/-- Boolean comparison for sorting evaluated line rows. -/
def lineOutLE (a b : LineOut) : Bool :=
  keyLE a.estShip a.salesOrder a.custom b.estShip b.salesOrder b.custom

/-- Boolean comparison for `orders_df.sort_values(["Est. Ship min",
"Sales Order"])`. -/
def orderLE (a b : OrderOut) : Bool :=
  dkLt a.estShipMin b.estShipMin ||
    (a.estShipMin == b.estShipMin && strLE a.salesOrder b.salesOrder)

/-! ### Identifier mapper -/

/-- Python `str.strip()` applied to an identifier value: leading and
trailing whitespace characters are removed. -/
def strip (s : String) : String :=
  ⟨((s.data.dropWhile Char.isWhitespace).reverse.dropWhile Char.isWhitespace).reverse⟩

/-- The map built by `build_xref_map`: `Custom` and `Non Custom` values are
trimmed; `dict(zip(...))` keeps the last binding of a duplicated key. -/
def build_xref_map (xref : List (String × String)) : List (String × String) :=
  xref.map (fun p => (strip p.1, strip p.2))

/-- Lookup in the cross-reference dictionary; the last binding of a key wins,
matching Python `dict` construction from pairs. -/
def xlookup (m : List (String × String)) (k : String) : Option String :=
  (m.reverse.find? (fun p => p.1 == k)).map (fun p => p.2)

/-- The per-value effect of `map_custom_to_non`: trim, then look up; an
unresolved identifier maps to `none` (pandas `NaN`). -/
def map_custom_to_non (xm : List (String × String)) (v : String) : Option String :=
  xlookup xm (strip v)

/-! ### Input preparation -/

/-- The per-row preparation shared by `prep_zco41` and `prep_coois`:
coerce the quantity (`fillna(0)`), keep the parsed date, and map the
trimmed `Custom` identifier through the cross-reference. -/
def prepLine (xm : List (String × String)) (r : RawRow) : ZcoLine :=
  ⟨r.rawQty.getD 0, r.estShip, r.salesOrder, r.custom, map_custom_to_non xm r.custom⟩

/-- Aggregated supply for one identifier: the sum of the coerced `OpenQty`
of the MB52 rows carrying that identifier. -/
def supplySum (rows : List MB52Row) (id : String) : ℚ :=
  ((rows.filter (fun r => r.nonCustom == id)).map (fun r => r.rawQty.getD 0)).sum

/-- The `prep_mb52` aggregation: `groupby("Non Custom").sum()` over the
coerced `OpenQty`, with the (sorted, duplicate-free) group keys. -/
def prep_mb52 (rows : List MB52Row) : List (String × ℚ) :=
  (ssort strLE (firstDedup (rows.map (fun r => r.nonCustom)))).map
    (fun id => (id, supplySum rows id))

/-- Aggregated firm demand for one mapped identifier: the sum of the
coerced quantities of the COOIS lines mapping to it. -/
def cooisDemandSum (lines : List ZcoLine) (id : String) : ℚ :=
  ((lines.filter (fun l => l.nonCustom == some id)).map (fun l => l.qty)).sum

/-- The sorted, deduplicated list of original `Custom` values of the lines
whose cross-reference lookup failed (`drop_duplicates().sort_values()`). -/
def unmappedOf (lines : List ZcoLine) : List String :=
  ssort strLE (firstDedup ((lines.filter (fun l => l.nonCustom == none)).map
    (fun l => l.custom)))

/-- The `prep_coois` preparation: prepared lines, the unmapped-identifier
diagnostic list, and the firm demand aggregated by mapped identifier
(`dropna` on the mapped column, then `groupby("Non Custom").sum()`). -/
def prep_coois (rows : List RawRow) (xm : List (String × String)) :
    List ZcoLine × List String × List (String × ℚ) :=
  let lines := rows.map (prepLine xm)
  (lines, unmappedOf lines,
   (ssort strLE (firstDedup (lines.filterMap (fun l => l.nonCustom)))).map
     (fun id => (id, cooisDemandSum lines id)))

/-- The `prep_zco41` preparation: prepared lines and the unmapped-identifier
diagnostic list. -/
def prep_zco41 (rows : List RawRow) (xm : List (String × String)) :
    List ZcoLine × List String :=
  let lines := rows.map (prepLine xm)
  (lines, unmappedOf lines)

/-- First-match lookup in a unique-key association list, as a pandas merge
against a `groupby` result behaves. -/
def lookupD (l : List (String × ℚ)) (k : String) : Option ℚ :=
  (l.find? (fun p => p.1 == k)).map (fun p => p.2)

/-- The base inventory `inv_after = mb52_inv.merge(coois_demand, on="Non
Custom", how="left")` with `CooisQty` filled with 0 and `Avail = OpenQty −
CooisQty`: a left merge keeps exactly the supply-side identifiers. -/
def inv_after (mb52inv : List (String × ℚ)) (cooisDemand : List (String × ℚ)) :
    List (String × ℚ) :=
  mb52inv.map (fun p => (p.1, p.2 - (lookupD cooisDemand p.1).getD 0))

/-! ### Balance pool (flat form) -/

/-- The availability dictionary: keys are mapped identifiers, with `none`
standing for the pandas `NaN` key that an unmapped line would use. -/
abbrev AvailMap := List (Option String × ℚ)

/-- Dictionary read with default, `avail_dict.get(sku, 0.0)`. -/
def dget : AvailMap → Option String → ℚ
  | [], _ => 0
  | p :: d, k => if p.1 == k then p.2 else dget d k

/-- Dictionary write, `avail_dict[sku] = v`: update the existing entry in
place, or append a new key at the end. -/
def dset : AvailMap → Option String → ℚ → AvailMap
  | [], k, v => [(k, v)]
  | p :: d, k, v => if p.1 == k then (k, v) :: d else p :: dset d k v

/-- The dictionary built by `dict(zip(inv_after["Non Custom"],
inv_after["Avail"]))`. -/
def init_avail (invAfter : List (String × ℚ)) : AvailMap :=
  invAfter.map (fun p => (some p.1, p.2))

/-! ### Reconciliation evaluator -/

/-- The record accumulated in `checks` for one line: the line itself, its
verdict, its shortfall, and its diagnostic note. -/
structure Check where
  line : ZcoLine
  ok : Bool
  falt : ℚ
  nota : Nota
deriving DecidableEq, Repr

/-- The per-line check of `evaluate_orders`: an unmapped line is never OK
and records its full quantity as shortfall; a mapped line is OK exactly
when the current availability covers its quantity, otherwise the shortfall
is `max(0, qty − avail)`. -/
def checkLine (avail : AvailMap) (r : ZcoLine) : Check :=
  match r.nonCustom with
  | none => ⟨r, false, r.qty, Nota.sinMapeo⟩
  | some sku =>
    let a := dget avail (some sku)
    if r.qty ≤ a then ⟨r, true, 0, Nota.suficiente⟩
    else ⟨r, false, max 0 (r.qty - a), Nota.noSuficiente (max 0 (r.qty - a))⟩

/-- The commit loop of an accepted order: every line's quantity is
subtracted from its identifier's availability, in line order. -/
def commitGroup (avail : AvailMap) (checks : List Check) : AvailMap :=
  checks.foldl
    (fun av c => dset av c.line.nonCustom (dget av c.line.nonCustom - c.line.qty)) avail

/-- The `grp["EstShip"].min()` of a group: minimum over the non-null ship
dates, `none` when there is none (`NaT` values are skipped). -/
def estShipMin (lines : List ZcoLine) : Option Int :=
  match lines.filterMap (fun r => r.estShip) with
  | [] => none
  | d :: ds => some (ds.foldl min d)

/-- The output row of one checked line. -/
def lineOutOf (c : Check) : LineOut :=
  ⟨c.line.salesOrder, c.line.estShip, c.line.custom, c.line.nonCustom, c.line.qty,
   c.nota, c.falt, c.ok⟩

/-- Evaluation of one sales order against the current pool: check every
line without mutating the pool, accept only if all lines are OK, and only
then commit all decrements. -/
def evalGroup (avail : AvailMap) (so : String) (grp : List ZcoLine) :
    AvailMap × OrderOut × List LineOut :=
  let checks := grp.map (checkLine avail)
  let ok := checks.all (fun c => c.ok)
  (if ok then commitGroup avail checks else avail,
   ⟨so, estShipMin grp, grp.length, ok⟩,
   checks.map lineOutOf)

/-- The `groupby("Sales Order", sort=False)` of the sorted lines: one group
per sales order, in first-occurrence order of the keys, each group
containing all of its rows in their current (sorted) order. -/
def groupsOf (l : List ZcoLine) : List (String × List ZcoLine) :=
  (firstDedup (l.map (fun r => r.salesOrder))).map
    (fun so => (so, l.filter (fun r => r.salesOrder == so)))

/-- The group loop of `evaluate_orders`: thread the pool through the groups,
collecting one summary row per order and the detail rows of every line. -/
def evalGroups (avail : AvailMap) : List (String × List ZcoLine) →
    AvailMap × List OrderOut × List LineOut
  | [] => (avail, [], [])
  | g :: rest =>
    let t := evalGroup avail g.1 g.2
    let u := evalGroups t.1 rest
    (u.1, t.2.1 :: u.2.1, t.2.2 ++ u.2.2)

/-- The pool state after processing a prefix of the group sequence. -/
def poolAfterGroups (avail : AvailMap) (gs : List (String × List ZcoLine)) : AvailMap :=
  gs.foldl (fun av g => (evalGroup av g.1 g.2).1) avail

/-- The full `evaluate_orders`: initialize the pool from `inv_after`, sort
the lines stably by `(EstShip, Sales Order, Custom)`, evaluate the groups
in first-occurrence order, and return the sorted order summary, the sorted
line detail, and the final pool. -/
def evaluate_orders (zco : List ZcoLine) (invAfter : List (String × ℚ)) :
    List OrderOut × List LineOut × AvailMap :=
  let t := evalGroups (init_avail invAfter) (groupsOf (ssort lineLE zco))
  (ssort orderLE t.2.1, ssort lineOutLE t.2.2, t.1)

/-! ### Reporting projections -/

/-- The order status looked up by the left merge of `lines_df` with
`orders_df[["Sales Order", "Status"]]`. -/
def statusOf (ordersDf : List OrderOut) (so : String) : Option Bool :=
  (ordersDf.find? (fun o => o.salesOrder == so)).map (fun o => o.status)

/-- The shortage projection `build_inventario_necesito`: positive shortfalls
of mapped lines of rejected orders, aggregated by identifier, plus the
absolute values of the negative base availabilities, filtered to positive
totals and sorted descending by total. -/
def build_inventario_necesito (ordersDf : List OrderOut) (linesDf : List LineOut)
    (invAfter : List (String × ℚ)) : List (String × ℚ) :=
  let falt := linesDf.filter (fun l =>
    statusOf ordersDf l.salesOrder == some false && decide (0 < l.shortage) &&
      l.nonCustom.isSome)
  let faltGroup := (ssort strLE (firstDedup (falt.filterMap (fun l => l.nonCustom)))).map
    (fun id => (id, ((falt.filter (fun l => l.nonCustom == some id)).map
      (fun l => l.shortage)).sum))
  let neg := (invAfter.filter (fun p => decide (p.2 < 0))).map (fun p => (p.1, |p.2|))
  let cat := faltGroup ++ neg
  let out := (ssort strLE (firstDedup (cat.map (fun p => p.1)))).map
    (fun id => (id, ((cat.filter (fun p => p.1 == id)).map (fun p => p.2)).sum))
  ssort (fun a b => decide (b.2 ≤ a.2)) (out.filter (fun p => decide (0 < p.2)))

/-- The past-due filter on evaluated ZCO41 lines: non-null ship date
strictly earlier than `today`, sorted like `lines_df`. -/
def build_past_due_zco (linesDf : List LineOut) (today : Int) : List LineOut :=
  ssort lineOutLE (linesDf.filter (fun l =>
    match l.estShip with
    | some d => decide (d < today)
    | none => false))

/-- One row of the past-due COOIS report. -/
structure CooisOut where
  salesOrder : String
  estShip : Option Int
  custom : String
  nonCustom : Option String
  qty : ℚ
  nota : Nota
  ok : Bool
  shortage : ℚ
deriving DecidableEq, Repr

/-- The left merge of the past-due COOIS rows with
`inv_after[["Non Custom", "Avail"]]`: an absent or null identifier finds no
availability row. -/
def availLookup (invAfter : List (String × ℚ)) (k : Option String) : Option ℚ :=
  match k with
  | some id => lookupD invAfter id
  | none => none

/-- The `nota_result` classification of `build_past_due_coois`: a missing
availability is treated as 0; a non-negative availability passes with zero
shortfall, a negative one fails with shortfall `|avail|`. -/
def nota_result (avail : Option ℚ) : Nota × Bool × ℚ :=
  let a := avail.getD 0
  if 0 ≤ a then (Nota.suficiente, true, 0)
  else (Nota.noSuficiente |a|, false, |a|)

/-- The past-due COOIS report `build_past_due_coois`: re-map the original
identifiers, keep the rows with non-null ship date strictly earlier than
`today`, classify each from the merged aggregate availability alone, and
sort like the line detail. -/
def build_past_due_coois (coois : List ZcoLine) (invAfter : List (String × ℚ))
    (xm : List (String × String)) (today : Int) : List CooisOut :=
  let base := coois.map (fun r => (r, map_custom_to_non xm r.custom))
  let past := base.filter (fun p =>
    match p.1.estShip with
    | some d => decide (d < today)
    | none => false)
  ssort (fun a b => keyLE a.estShip a.salesOrder a.custom b.estShip b.salesOrder b.custom)
    (past.map (fun p =>
      let t := nota_result (availLookup invAfter p.2)
      ⟨p.1.salesOrder, p.1.estShip, p.1.custom, p.2, p.1.qty, t.1, t.2.1, t.2.2⟩))

/-! ### FIFO allocator (engine B) -/

/-- The classification tag of an allocation result. -/
inductive AllocClass where
  | matched
  | split
  | noMatch
  | unmatchedRemainder
deriving DecidableEq, Repr

/-- One allocation result: the index of the source balance record (if any),
the consumed quantity, the shortfall, and the classification. -/
structure AllocationResult where
  source : Option Nat
  consumed : ℚ
  shortfall : ℚ
  cls : AllocClass
deriving DecidableEq, Repr

/-- Modelled from the spec: the splitting fallback of the FIFO allocator
(§4.4 step 3) — walk the balance records in priority order, consume
`min(remaining, outstanding)` from each record with positive remaining,
emit one `split` fragment per consumed piece, and stop when the outstanding
quantity reaches 0 or the records are exhausted.  Returns the fragments,
the updated records, and the final outstanding quantity. -/
def splitLoop (i : Nat) : List ℚ → ℚ → List AllocationResult × List ℚ × ℚ
  | [], outst => ([], [], outst)
  | r :: rs, outst =>
    if outst ≤ 0 then ([], r :: rs, outst)
    else if 0 < r then
      let take := min r outst
      let t := splitLoop (i + 1) rs (outst - take)
      (⟨some i, take, 0, AllocClass.split⟩ :: t.1, (r - take) :: t.2.1, t.2.2)
    else
      let t := splitLoop (i + 1) rs outst
      (t.1, r :: t.2.1, t.2.2)

/-- Modelled from the spec: the FIFO allocator of engine B (§4.4), absent
from the repository's source tree.  For one request of quantity `q` against
one identifier whose priority-ordered balance records have remaining
quantities `recs`: no records at all yields a single `noMatch` result; if
some single record has remaining at least `q`, the first such record is
decremented by `q` and one fully satisfied `matched` result is emitted;
otherwise the request is split across the records in priority order, and a
final positive outstanding quantity is emitted as an `unmatchedRemainder`
result. -/
def fifoAllocate (recs : List ℚ) (q : ℚ) : List AllocationResult × List ℚ :=
  if recs.isEmpty then ([⟨none, 0, q, AllocClass.noMatch⟩], recs)
  else
    match recs.findIdx? (fun r => decide (q ≤ r)) with
    | some i => ([⟨some i, q, 0, AllocClass.matched⟩], recs.set i (recs.getD i 0 - q))
    | none =>
      let t := splitLoop 0 recs q
      if 0 < t.2.2 then
        (t.1 ++ [⟨none, 0, t.2.2, AllocClass.unmatchedRemainder⟩], t.2.1)
      else (t.1, t.2.1)

/-! ### Spec-level predicates used to state the claims -/

/-- Spec-level predicate: a line is OK against pool `avail` when it is
mapped and the availability of its identifier covers its quantity. -/
def LineOK (avail : AvailMap) (r : ZcoLine) : Prop :=
  ∃ sku, r.nonCustom = some sku ∧ r.qty ≤ dget avail (some sku)

/-- The total quantity a group of lines requests on one pool key. -/
def groupReq (lines : List ZcoLine) (k : Option String) : ℚ :=
  ((lines.filter (fun r => r.nonCustom == k)).map (fun r => r.qty)).sum

/-- Spec-level clause (a) of the shortage projection: the sum of the
positive shortfalls of mapped lines belonging to rejected orders, for one
identifier. -/
def faltTotal (ordersDf : List OrderOut) (linesDf : List LineOut) (id : String) : ℚ :=
  ((linesDf.filter (fun l =>
    statusOf ordersDf l.salesOrder == some false && decide (0 < l.shortage) &&
      l.nonCustom == some id)).map (fun l => l.shortage)).sum

/-- Spec-level clause (b) of the shortage projection: the absolute value of
one identifier's base availability when it is negative. -/
def negTotal (invAfter : List (String × ℚ)) (id : String) : ℚ :=
  ((invAfter.filter (fun p => p.1 == id && decide (p.2 < 0))).map (fun p => |p.2|)).sum

/-- The spec-level shortage total for one identifier. -/
def needTotal (ordersDf : List OrderOut) (linesDf : List LineOut)
    (invAfter : List (String × ℚ)) (id : String) : ℚ :=
  faltTotal ordersDf linesDf id + negTotal invAfter id

/-- Spec-level strict order on evaluated groups: ascending in (minimum
ship date within the group, group identifier), missing dates last. -/
def groupLT (g1 g2 : String × List ZcoLine) : Prop :=
  dkLt (estShipMin g1.2) (estShipMin g2.2) = true ∨
    (estShipMin g1.2 = estShipMin g2.2 ∧ strLt g1.1 g2.1 = true)

/-- The `falt` selection inside `build_inventario_necesito`: mapped lines
of rejected orders with positive shortfall. -/
def faltRows (ordersDf : List OrderOut) (linesDf : List LineOut) : List LineOut :=
  linesDf.filter (fun l =>
    statusOf ordersDf l.salesOrder == some false && decide (0 < l.shortage) &&
      l.nonCustom.isSome)

/-- The group keys of the `falt` aggregation. -/
def faltIdsOf (ordersDf : List OrderOut) (linesDf : List LineOut) : List String :=
  ssort strLE (firstDedup ((faltRows ordersDf linesDf).filterMap (fun l => l.nonCustom)))

/-- The `falt_group` aggregation inside `build_inventario_necesito`. -/
def faltGroupOf (ordersDf : List OrderOut) (linesDf : List LineOut) :
    List (String × ℚ) :=
  (faltIdsOf ordersDf linesDf).map (fun id => (id,
    (((faltRows ordersDf linesDf).filter (fun l => l.nonCustom == some id)).map
      (fun l => l.shortage)).sum))

/-- The `neg` rows inside `build_inventario_necesito`: negative base
availabilities with their absolute values. -/
def negRows (invAfter : List (String × ℚ)) : List (String × ℚ) :=
  (invAfter.filter (fun p => decide (p.2 < 0))).map (fun p => (p.1, |p.2|))

/-- The concatenation re-aggregated by `build_inventario_necesito`. -/
def catRows (ordersDf : List OrderOut) (linesDf : List LineOut)
    (invAfter : List (String × ℚ)) : List (String × ℚ) :=
  faltGroupOf ordersDf linesDf ++ negRows invAfter

/-- The `out` aggregation of `build_inventario_necesito` before the
positivity filter and the final descending sort. -/
def outRows (ordersDf : List OrderOut) (linesDf : List LineOut)
    (invAfter : List (String × ℚ)) : List (String × ℚ) :=
  (ssort strLE (firstDedup ((catRows ordersDf linesDf invAfter).map (fun p => p.1)))).map
    (fun id => (id, (((catRows ordersDf linesDf invAfter).filter
      (fun p => p.1 == id)).map (fun p => p.2)).sum))

/-! ### Order lemmas for the Boolean comparators -/

theorem char_toNat_inj {a b : Char} (h : a.toNat = b.toNat) : a = b :=
  Char.ext (UInt32.toNat.inj h)

theorem clLE_total : ∀ x y : List Char, clLE x y = true ∨ clLE y x = true
  | [], _ => Or.inl rfl
  | _ :: _, [] => Or.inr rfl
  | a :: as, b :: bs => by
    simp only [clLE]
    rcases Nat.lt_trichotomy a.toNat b.toNat with h | h | h
    · left
      simp [h]
    · have h1 : ¬ a.toNat < b.toNat := by omega
      have h2 : ¬ b.toNat < a.toNat := by omega
      simpa [h1, h2] using clLE_total as bs
    · right
      simp [h]

theorem clLE_trans : ∀ x y z : List Char,
    clLE x y = true → clLE y z = true → clLE x z = true
  | [], _, _, _, _ => rfl
  | a :: as, [], _, h, _ => by simp [clLE] at h
  | a :: as, b :: bs, [], _, h => by simp [clLE] at h
  | a :: as, b :: bs, c :: cs, h1, h2 => by
    simp only [clLE] at h1 h2 ⊢
    by_cases hab : a.toNat < b.toNat
    · by_cases hbc : b.toNat < c.toNat
      · have : a.toNat < c.toNat := by omega
        simp [this]
      · by_cases hcb : c.toNat < b.toNat
        · simp [hab, hbc, hcb] at h2
        · have : a.toNat < c.toNat := by omega
          simp [this]
    · by_cases hba : b.toNat < a.toNat
      · simp [hab, hba] at h1
      · by_cases hbc : b.toNat < c.toNat
        · have : a.toNat < c.toNat := by omega
          simp [this]
        · by_cases hcb : c.toNat < b.toNat
          · simp [hbc, hcb] at h2
          · have h1' : ¬ a.toNat < c.toNat := by omega
            have h2' : ¬ c.toNat < a.toNat := by omega
            simp only [hab, hba, if_neg, ite_false] at h1
            simp only [hbc, hcb, if_neg, ite_false] at h2
            simp only [h1', h2', if_neg, ite_false]
            exact clLE_trans as bs cs (by simpa [hab, hba] using h1) (by simpa [hbc, hcb] using h2)

theorem clLE_antisymm : ∀ x y : List Char,
    clLE x y = true → clLE y x = true → x = y
  | [], [], _, _ => rfl
  | [], b :: bs, _, h => by simp [clLE] at h
  | a :: as, [], h, _ => by simp [clLE] at h
  | a :: as, b :: bs, h1, h2 => by
    simp only [clLE] at h1 h2
    rcases Nat.lt_trichotomy a.toNat b.toNat with hab | hab | hab
    · have : ¬ a.toNat < b.toNat → False := fun hc => hc hab
      simp [hab, Nat.lt_asymm hab] at h2
    · have h1' : ¬ a.toNat < b.toNat := by omega
      have h2' : ¬ b.toNat < a.toNat := by omega
      simp only [h1', h2', if_false, if_neg, ite_false] at h1 h2
      rw [char_toNat_inj hab, clLE_antisymm as bs (by simpa [h1', h2'] using h1) (by simpa [h1', h2'] using h2)]
    · simp [hab, Nat.lt_asymm hab] at h1

theorem strLE_total (a b : String) : strLE a b = true ∨ strLE b a = true :=
  clLE_total a.data b.data

theorem strLE_trans {a b c : String} (h1 : strLE a b = true) (h2 : strLE b c = true) :
    strLE a c = true :=
  clLE_trans a.data b.data c.data h1 h2

theorem strLE_antisymm {a b : String} (h1 : strLE a b = true) (h2 : strLE b a = true) :
    a = b := by
  cases a
  cases b
  exact congrArg String.mk (clLE_antisymm _ _ h1 h2)

theorem clLt_irrefl : ∀ x : List Char, clLt x x = false
  | [] => rfl
  | a :: as => by
    simp only [clLt, Nat.lt_irrefl, if_false, ite_false]
    exact clLt_irrefl as

theorem clLt_trans : ∀ x y z : List Char,
    clLt x y = true → clLt y z = true → clLt x z = true
  | [], [], _, h1, _ => by simp [clLt] at h1
  | [], b :: bs, [], _, h2 => by simp [clLt] at h2
  | [], _ :: _, _ :: _, _, _ => rfl
  | _ :: _, [], _, h1, _ => by simp [clLt] at h1
  | _ :: _, _ :: _, [], _, h2 => by simp [clLt] at h2
  | a :: as, b :: bs, c :: cs, h1, h2 => by
    simp only [clLt] at h1 h2 ⊢
    by_cases hab : a.toNat < b.toNat
    · by_cases hbc : b.toNat < c.toNat
      · have : a.toNat < c.toNat := by omega
        simp [this]
      · by_cases hcb : c.toNat < b.toNat
        · simp [hbc, hcb] at h2
        · have : a.toNat < c.toNat := by omega
          simp [this]
    · by_cases hba : b.toNat < a.toNat
      · simp [hab, hba] at h1
      · by_cases hbc : b.toNat < c.toNat
        · have : a.toNat < c.toNat := by omega
          simp [this]
        · by_cases hcb : c.toNat < b.toNat
          · simp [hbc, hcb] at h2
          · have h1' : ¬ a.toNat < c.toNat := by omega
            have h2' : ¬ c.toNat < a.toNat := by omega
            simp only [h1', h2', if_neg, ite_false]
            exact clLt_trans as bs cs (by simpa [hab, hba] using h1) (by simpa [hbc, hcb] using h2)

theorem clLt_asymm : ∀ x y : List Char, clLt x y = true → clLt y x = false
  | [], [], h => by simp [clLt] at h
  | [], _ :: _, _ => rfl
  | _ :: _, [], h => by simp [clLt] at h
  | a :: as, b :: bs, h => by
    simp only [clLt] at h ⊢
    by_cases hab : a.toNat < b.toNat
    · have hba : ¬ b.toNat < a.toNat := by omega
      simp [hab, hba]
    · by_cases hba : b.toNat < a.toNat
      · simp [hab, hba] at h
      · simp only [hab, hba, if_neg, ite_false] at h ⊢
        exact clLt_asymm as bs (by simpa [hab, hba] using h)

theorem cl_trichotomy : ∀ x y : List Char, clLt x y = true ∨ x = y ∨ clLt y x = true
  | [], [] => Or.inr (Or.inl rfl)
  | [], _ :: _ => Or.inl rfl
  | _ :: _, [] => Or.inr (Or.inr rfl)
  | a :: as, b :: bs => by
    by_cases hab : a.toNat < b.toNat
    · left
      simp [clLt, hab]
    · by_cases hba : b.toNat < a.toNat
      · right; right
        simp [clLt, hba]
      · have hEq : a = b := char_toNat_inj (by omega)
        subst hEq
        rcases cl_trichotomy as bs with h | h | h
        · left
          simpa [clLt, Nat.lt_irrefl] using h
        · right; left
          rw [h]
        · right; right
          simpa [clLt, Nat.lt_irrefl] using h

theorem strLt_trans {a b c : String} (h1 : strLt a b = true) (h2 : strLt b c = true) :
    strLt a c = true :=
  clLt_trans a.data b.data c.data h1 h2

theorem strLt_asymm {a b : String} (h : strLt a b = true) : strLt b a = false :=
  clLt_asymm a.data b.data h

theorem strLt_irrefl (a : String) : strLt a a = false :=
  clLt_irrefl a.data

theorem str_trichotomy (a b : String) : strLt a b = true ∨ a = b ∨ strLt b a = true := by
  rcases cl_trichotomy a.data b.data with h | h | h
  · exact Or.inl h
  · refine Or.inr (Or.inl ?_)
    cases a
    cases b
    exact congrArg String.mk h
  · exact Or.inr (Or.inr h)

theorem dkLt_irrefl : ∀ x : Option Int, dkLt x x = false
  | none => rfl
  | some d => by simp [dkLt]

theorem dkLt_trans : ∀ {x y z : Option Int},
    dkLt x y = true → dkLt y z = true → dkLt x z = true
  | some a, some b, some c, h1, h2 => by
    simp only [dkLt, decide_eq_true_eq] at h1 h2 ⊢
    omega
  | some _, some _, none, _, _ => rfl
  | some _, none, _, _, h2 => by simp [dkLt] at h2
  | none, _, _, h1, _ => by simp [dkLt] at h1

theorem dkLt_asymm : ∀ {x y : Option Int}, dkLt x y = true → dkLt y x = false
  | some a, some b, h => by
    simp only [dkLt, decide_eq_true_eq] at h ⊢
    simp only [decide_eq_false_iff_not]
    omega
  | some _, none, _ => rfl
  | none, _, h => by simp [dkLt] at h

theorem dk_trichotomy : ∀ x y : Option Int, dkLt x y = true ∨ x = y ∨ dkLt y x = true
  | none, none => Or.inr (Or.inl rfl)
  | none, some _ => Or.inr (Or.inr rfl)
  | some _, none => Or.inl rfl
  | some a, some b => by
    rcases Int.lt_trichotomy a b with h | h | h
    · left
      simp [dkLt, h]
    · exact Or.inr (Or.inl (by rw [h]))
    · right; right
      simp [dkLt, h]

theorem keyLE_total (e1 e2 : Option Int) (s1 c1 s2 c2 : String) :
    keyLE e1 s1 c1 e2 s2 c2 = true ∨ keyLE e2 s2 c2 e1 s1 c1 = true := by
  simp only [keyLE, Bool.or_eq_true, Bool.and_eq_true, beq_iff_eq]
  rcases dk_trichotomy e1 e2 with h | h | h
  · exact Or.inl (Or.inl h)
  · subst h
    rcases str_trichotomy s1 s2 with hs | hs | hs
    · exact Or.inl (Or.inr ⟨rfl, Or.inl hs⟩)
    · subst hs
      rcases strLE_total c1 c2 with hc | hc
      · exact Or.inl (Or.inr ⟨rfl, Or.inr ⟨rfl, hc⟩⟩)
      · exact Or.inr (Or.inr ⟨rfl, Or.inr ⟨rfl, hc⟩⟩)
    · exact Or.inr (Or.inr ⟨rfl, Or.inl hs⟩)
  · exact Or.inr (Or.inl h)

theorem keyLE_trans {e1 e2 e3 : Option Int} {s1 c1 s2 c2 s3 c3 : String}
    (h1 : keyLE e1 s1 c1 e2 s2 c2 = true) (h2 : keyLE e2 s2 c2 e3 s3 c3 = true) :
    keyLE e1 s1 c1 e3 s3 c3 = true := by
  simp only [keyLE, Bool.or_eq_true, Bool.and_eq_true, beq_iff_eq] at h1 h2 ⊢
  rcases h1 with h1 | ⟨he12, h1⟩
  · rcases h2 with h2 | ⟨he23, h2⟩
    · exact Or.inl (dkLt_trans h1 h2)
    · subst he23
      exact Or.inl h1
  · subst he12
    rcases h2 with h2 | ⟨he23, h2⟩
    · exact Or.inl h2
    · subst he23
      refine Or.inr ⟨rfl, ?_⟩
      rcases h1 with h1 | ⟨hs12, h1⟩
      · rcases h2 with h2 | ⟨hs23, h2⟩
        · exact Or.inl (strLt_trans h1 h2)
        · subst hs23
          exact Or.inl h1
      · subst hs12
        rcases h2 with h2 | ⟨hs23, h2⟩
        · exact Or.inl h2
        · subst hs23
          exact Or.inr ⟨rfl, strLE_trans h1 h2⟩

theorem keyLE_antisymm {e1 e2 : Option Int} {s1 c1 s2 c2 : String}
    (h1 : keyLE e1 s1 c1 e2 s2 c2 = true) (h2 : keyLE e2 s2 c2 e1 s1 c1 = true) :
    e1 = e2 ∧ s1 = s2 ∧ c1 = c2 := by
  simp only [keyLE, Bool.or_eq_true, Bool.and_eq_true, beq_iff_eq] at h1 h2
  rcases h1 with h1 | ⟨he12, h1⟩
  · rcases h2 with h2 | ⟨he21, h2⟩
    · rw [dkLt_asymm h1] at h2
      cases h2
    · subst he21
      rw [dkLt_irrefl] at h1
      cases h1
  · subst he12
    rcases h2 with h2 | ⟨_, h2⟩
    · rw [dkLt_irrefl] at h2
      cases h2
    · refine ⟨rfl, ?_⟩
      rcases h1 with h1 | ⟨hs12, h1⟩
      · rcases h2 with h2 | ⟨hs21, h2⟩
        · rw [strLt_asymm h1] at h2
          cases h2
        · subst hs21
          rw [strLt_irrefl] at h1
          cases h1
      · subst hs12
        rcases h2 with h2 | ⟨_, h2⟩
        · rw [strLt_irrefl] at h2
          cases h2
        · exact ⟨rfl, strLE_antisymm h1 h2⟩

theorem lineLE_total (a b : ZcoLine) : lineLE a b = true ∨ lineLE b a = true :=
  keyLE_total a.estShip b.estShip a.salesOrder a.custom b.salesOrder b.custom

theorem lineLE_trans {a b c : ZcoLine} (h1 : lineLE a b = true) (h2 : lineLE b c = true) :
    lineLE a c = true :=
  keyLE_trans h1 h2

theorem lineLE_antisymm {a b : ZcoLine} (h1 : lineLE a b = true) (h2 : lineLE b a = true) :
    a.estShip = b.estShip ∧ a.salesOrder = b.salesOrder ∧ a.custom = b.custom :=
  keyLE_antisymm h1 h2

/-! ### Stable sort lemmas -/

theorem sinsert_perm (le : α → α → Bool) (x : α) :
    ∀ l : List α, List.Perm (sinsert le x l) (x :: l)
  | [] => List.Perm.refl _
  | y :: ys => by
    simp only [sinsert]
    by_cases h : le x y
    · simp [h]
    · simp only [h, if_neg, ite_false]
      exact ((sinsert_perm le x ys).cons y).trans (List.Perm.swap x y ys)

theorem ssort_perm (le : α → α → Bool) : ∀ l : List α, List.Perm (ssort le l) l
  | [] => List.Perm.refl _
  | x :: xs => (sinsert_perm le x (ssort le xs)).trans ((ssort_perm le xs).cons x)

theorem mem_ssort {le : α → α → Bool} {l : List α} {a : α} :
    a ∈ ssort le l ↔ a ∈ l :=
  (ssort_perm le l).mem_iff

theorem count_ssort [DecidableEq α] (le : α → α → Bool) (l : List α) (a : α) :
    (ssort le l).count a = l.count a :=
  (ssort_perm le l).count_eq a

theorem pairwise_sinsert (le : α → α → Bool)
    (htot : ∀ a b, le a b = true ∨ le b a = true)
    (htrans : ∀ {a b c}, le a b = true → le b c = true → le a c = true)
    (x : α) : ∀ l : List α, l.Pairwise (fun a b => le a b = true) →
      (sinsert le x l).Pairwise (fun a b => le a b = true)
  | [], _ => by simp [sinsert]
  | y :: ys, h => by
    rcases List.pairwise_cons.mp h with ⟨hy, hys⟩
    simp only [sinsert]
    by_cases hxy : le x y = true
    · simp only [hxy, if_true, ite_true]
      refine List.pairwise_cons.mpr ⟨?_, h⟩
      intro b hb
      rcases List.mem_cons.mp hb with rfl | hb
      · exact hxy
      · exact htrans hxy (hy b hb)
    · simp only [hxy, if_false, ite_false]
      refine List.pairwise_cons.mpr ⟨?_, pairwise_sinsert le htot htrans x ys hys⟩
      intro b hb
      have hb' := (sinsert_perm le x ys).mem_iff.mp hb
      rcases List.mem_cons.mp hb' with rfl | hb'
      · rcases htot b y with hby | hyb
        · exact absurd hby hxy
        · exact hyb
      · exact hy b hb'

theorem pairwise_ssort (le : α → α → Bool)
    (htot : ∀ a b, le a b = true ∨ le b a = true)
    (htrans : ∀ {a b c}, le a b = true → le b c = true → le a c = true) :
    ∀ l : List α, (ssort le l).Pairwise (fun a b => le a b = true)
  | [] => by simp [ssort]
  | x :: xs => pairwise_sinsert le htot htrans x _ (pairwise_ssort le htot htrans xs)

theorem sinsert_stable {le : α → α → Bool}
    (htot : ∀ a b, le a b = true ∨ le b a = true)
    (htrans : ∀ {a b c}, le a b = true → le b c = true → le a c = true)
    (x : Nat × α) :
    ∀ l : List (Nat × α),
      l.Pairwise (fun a b => le a.2 b.2 = true ∧ (le b.2 a.2 = true → a.1 < b.1)) →
      (∀ y ∈ l, x.1 < y.1) →
      (sinsert (fun a b => le a.2 b.2) x l).Pairwise
        (fun a b => le a.2 b.2 = true ∧ (le b.2 a.2 = true → a.1 < b.1))
  | [], _, _ => by simp [sinsert]
  | y :: ys, h, hidx => by
    rcases List.pairwise_cons.mp h with ⟨hy, hys⟩
    simp only [sinsert]
    by_cases hxy : le x.2 y.2 = true
    · simp only [hxy, if_true, ite_true]
      refine List.pairwise_cons.mpr ⟨?_, h⟩
      intro b hb
      refine ⟨?_, fun _ => hidx b hb⟩
      rcases List.mem_cons.mp hb with rfl | hb'
      · exact hxy
      · exact htrans hxy (hy b hb').1
    · simp only [hxy, if_false, ite_false]
      refine List.pairwise_cons.mpr
        ⟨?_, sinsert_stable htot htrans x ys hys
          (fun z hz => hidx z (List.mem_cons.mpr (Or.inr hz)))⟩
      intro b hb
      have hb' := (sinsert_perm (fun a b => le a.2 b.2) x ys).mem_iff.mp hb
      rcases List.mem_cons.mp hb' with rfl | hb'
      · rcases htot b.2 y.2 with hby | hyb
        · exact absurd hby hxy
        · exact ⟨hyb, fun hc => absurd hc hxy⟩
      · exact hy b hb'

theorem ssort_stable {le : α → α → Bool}
    (htot : ∀ a b, le a b = true ∨ le b a = true)
    (htrans : ∀ {a b c}, le a b = true → le b c = true → le a c = true) :
    ∀ l : List (Nat × α), l.Pairwise (fun a b => a.1 < b.1) →
      (ssort (fun a b => le a.2 b.2) l).Pairwise
        (fun a b => le a.2 b.2 = true ∧ (le b.2 a.2 = true → a.1 < b.1))
  | [], _ => by simp [ssort]
  | x :: xs, h => by
    rcases List.pairwise_cons.mp h with ⟨hx, hxs⟩
    exact sinsert_stable htot htrans x _ (ssort_stable htot htrans xs hxs)
      (fun y hy => hx y ((ssort_perm _ xs).mem_iff.mp hy))

theorem sinsert_map (f : β → α) (le : α → α → Bool) (x : β) :
    ∀ l : List β,
      (sinsert (fun a b => le (f a) (f b)) x l).map f = sinsert le (f x) (l.map f)
  | [] => rfl
  | y :: ys => by
    simp only [sinsert, List.map_cons]
    by_cases h : le (f x) (f y)
    · simp [h]
    · simp [h, sinsert_map f le x ys]

theorem ssort_map (f : β → α) (le : α → α → Bool) :
    ∀ l : List β, (ssort (fun a b => le (f a) (f b)) l).map f = ssort le (l.map f)
  | [] => rfl
  | x :: xs => by
    simp only [ssort, List.map_cons]
    rw [sinsert_map, ssort_map f le xs]

theorem mem_enumFrom_fst_ge : ∀ (n : Nat) (l : List α) (p : Nat × α),
    p ∈ l.enumFrom n → n ≤ p.1
  | _, [], _, h => by simp at h
  | n, x :: xs, p, h => by
    rcases List.mem_cons.mp h with rfl | h
    · exact Nat.le_refl n
    · exact Nat.le_of_succ_le (mem_enumFrom_fst_ge (n + 1) xs p h)

theorem pairwise_enumFrom_fst_lt : ∀ (n : Nat) (l : List α),
    (l.enumFrom n).Pairwise (fun a b => a.1 < b.1)
  | _, [] => by simp
  | n, x :: xs => by
    simp only [List.enumFrom_cons]
    refine List.pairwise_cons.mpr ⟨?_, pairwise_enumFrom_fst_lt (n + 1) xs⟩
    intro p hp
    exact Nat.lt_of_lt_of_le (Nat.lt_succ_self n) (mem_enumFrom_fst_ge (n + 1) xs p hp)

theorem pairwise_enum_fst_lt (l : List α) : l.enum.Pairwise (fun a b => a.1 < b.1) :=
  pairwise_enumFrom_fst_lt 0 l

/-! ### Pool dictionary lemmas -/

theorem dget_dset : ∀ (d : AvailMap) (k : Option String) (v : ℚ) (k' : Option String),
    dget (dset d k v) k' = if k' = k then v else dget d k'
  | [], k, v, k' => by
    by_cases h : k' = k
    · subst h
      simp [dset, dget]
    · have h2 : (k == k') = false := by simpa using Ne.symm h
      simp [dset, dget, h, h2]
  | p :: d, k, v, k' => by
    by_cases hpk : (p.1 == k) = true
    · have hp : p.1 = k := by simpa using hpk
      by_cases h : k' = k
      · subst h
        simp [dset, dget, hpk]
      · have h2 : (k == k') = false := by simpa using Ne.symm h
        have h3 : (p.1 == k') = false := by
          rw [hp]
          exact h2
        simp [dset, dget, hpk, h, h2, h3]
    · simp only [dset, hpk, Bool.false_eq_true, if_false, ite_false]
      by_cases hpk' : (p.1 == k') = true
      · have hp' : p.1 = k' := by simpa using hpk'
        have hne : ¬ k' = k := by
          intro hc
          subst hc
          exact hpk hpk'
        simp [dget, hpk', hne]
      · simp [dget, hpk', dget_dset d k v k']

theorem dget_nonneg : ∀ (d : AvailMap), (∀ p ∈ d, 0 ≤ p.2) → ∀ k, 0 ≤ dget d k
  | [], _, _ => le_refl 0
  | p :: d, h, k => by
    simp only [dget]
    by_cases hpk : (p.1 == k) = true
    · simp only [hpk, if_true, ite_true]
      exact h p (List.mem_cons_self _ _)
    · simp only [hpk, Bool.false_eq_true, if_false, ite_false]
      exact dget_nonneg d (fun q hq => h q (List.mem_cons.mpr (Or.inr hq))) k

theorem dget_init_avail : ∀ (L : List (String × ℚ)) (id : String),
    dget (init_avail L) (some id) = (lookupD L id).getD 0
  | [], _ => rfl
  | p :: L, id => by
    by_cases h : (p.1 == id) = true
    · have hp : p.1 = id := by simpa using h
      simp [init_avail, dget, lookupD, List.find?_cons, h, hp]
    · simp only [init_avail, List.map_cons, dget, lookupD, List.find?_cons, h]
      have h2 : (some p.1 == some id) = false := by
        simpa using fun hc : p.1 = id => h (by simpa using hc)
      simp only [h2, Bool.false_eq_true, if_false, ite_false]
      exact dget_init_avail L id

theorem dget_commit : ∀ (checks : List Check) (avail : AvailMap) (k : Option String),
    dget (commitGroup avail checks) k
      = dget avail k
        - ((checks.filter (fun c => c.line.nonCustom == k)).map (fun c => c.line.qty)).sum
  | [], avail, k => by simp [commitGroup]
  | c :: cs, avail, k => by
    have IH := dget_commit cs
      (dset avail c.line.nonCustom (dget avail c.line.nonCustom - c.line.qty)) k
    have hstep : commitGroup avail (c :: cs)
        = commitGroup (dset avail c.line.nonCustom
            (dget avail c.line.nonCustom - c.line.qty)) cs := rfl
    rw [hstep, IH, dget_dset]
    by_cases h : (c.line.nonCustom == k) = true
    · have hk : c.line.nonCustom = k := by simpa using h
      subst hk
      simp only [if_pos rfl, List.filter_cons, h, List.map_cons, List.sum_cons, if_true]
      ring
    · have hk : ¬ k = c.line.nonCustom := by
        intro hc
        exact h (by simpa using hc.symm)
      simp [List.filter_cons, h, hk]

/-! ### Line check and group evaluation lemmas -/

theorem checkLine_line (avail : AvailMap) (r : ZcoLine) : (checkLine avail r).line = r := by
  cases hr : r.nonCustom with
  | none => simp [checkLine, hr]
  | some sku =>
    simp only [checkLine, hr]
    by_cases hq : r.qty ≤ dget avail (some sku)
    · simp [hq]
    · simp [hq]

theorem checkLine_ok_iff (avail : AvailMap) (r : ZcoLine) :
    (checkLine avail r).ok = true ↔ LineOK avail r := by
  cases hr : r.nonCustom with
  | none =>
    simp only [checkLine, hr, LineOK, Bool.false_eq_true, false_iff]
    rintro ⟨sku, hsku, -⟩
    exact Option.noConfusion hsku
  | some sku =>
    simp only [checkLine, hr, LineOK]
    by_cases hq : r.qty ≤ dget avail (some sku)
    · simp only [hq, if_true, ite_true, true_iff]
      exact ⟨sku, rfl, hq⟩
    · simp only [hq, if_false, ite_false, Bool.false_eq_true, false_iff]
      rintro ⟨sku2, hsku2, hle⟩
      obtain rfl : sku = sku2 := by simpa using hsku2
      exact hq hle

theorem checkLine_unmapped (avail : AvailMap) {r : ZcoLine} (h : r.nonCustom = none) :
    checkLine avail r = ⟨r, false, r.qty, Nota.sinMapeo⟩ := by
  simp [checkLine, h]

theorem evalGroup_status (avail : AvailMap) (so : String) (grp : List ZcoLine) :
    (evalGroup avail so grp).2.1.status = (grp.map (checkLine avail)).all (fun c => c.ok) :=
  rfl

theorem evalGroup_fst (avail : AvailMap) (so : String) (grp : List ZcoLine) :
    (evalGroup avail so grp).1
      = if (grp.map (checkLine avail)).all (fun c => c.ok)
          then commitGroup avail (grp.map (checkLine avail)) else avail :=
  rfl

theorem evalGroups_fst : ∀ (gs : List (String × List ZcoLine)) (avail : AvailMap),
    (evalGroups avail gs).1 = poolAfterGroups avail gs
  | [], _ => rfl
  | g :: rest, avail => by
    simp only [evalGroups, poolAfterGroups, List.foldl_cons]
    exact evalGroups_fst rest _

theorem poolAfterGroups_append (avail : AvailMap) (gs1 gs2 : List (String × List ZcoLine)) :
    poolAfterGroups avail (gs1 ++ gs2) = poolAfterGroups (poolAfterGroups avail gs1) gs2 := by
  simp [poolAfterGroups, List.foldl_append]

theorem evalGroups_orders : ∀ (pre : List (String × List ZcoLine)) (avail : AvailMap)
    (g : String × List ZcoLine) (post : List (String × List ZcoLine)),
    (evalGroups avail (pre ++ g :: post)).2.1[pre.length]?
      = some (evalGroup (poolAfterGroups avail pre) g.1 g.2).2.1
  | [], avail, g, post => by simp [evalGroups, poolAfterGroups]
  | p :: pre, avail, g, post => by
    simp only [List.cons_append, evalGroups, List.length_cons, List.getElem?_cons_succ]
    simp only [poolAfterGroups, List.foldl_cons]
    exact evalGroups_orders pre _ g post

/-! ### First-occurrence dedup and grouping lemmas -/

theorem mem_firstDedupAux [BEq α] [LawfulBEq α] :
    ∀ (seen l : List α) (a : α),
      a ∈ firstDedupAux seen l ↔ a ∈ l ∧ ¬ a ∈ seen
  | seen, [], a => by simp [firstDedupAux]
  | seen, x :: xs, a => by
    simp only [firstDedupAux]
    by_cases hc : seen.contains x = true
    · have hx : x ∈ seen := by
        rw [← List.elem_iff]
        exact hc
      simp only [hc, if_true, ite_true]
      rw [mem_firstDedupAux seen xs a]
      constructor
      · rintro ⟨h1, h2⟩
        exact ⟨List.mem_cons.mpr (Or.inr h1), h2⟩
      · rintro ⟨h1, h2⟩
        rcases List.mem_cons.mp h1 with rfl | h1
        · exact absurd hx h2
        · exact ⟨h1, h2⟩
    · simp only [hc, Bool.false_eq_true, if_false, ite_false, List.mem_cons]
      rw [mem_firstDedupAux (x :: seen) xs a]
      constructor
      · rintro (rfl | ⟨h1, h2⟩)
        · refine ⟨Or.inl rfl, fun hmem => hc ?_⟩
          rw [← List.elem_iff] at hmem
          exact hmem
        · exact ⟨Or.inr h1, fun hmem => h2 (List.mem_cons.mpr (Or.inr hmem))⟩
      · rintro ⟨rfl | h1, h2⟩
        · exact Or.inl rfl
        · by_cases hax : a = x
          · exact Or.inl hax
          · exact Or.inr ⟨h1, fun hmem => by
              rcases List.mem_cons.mp hmem with h | h
              · exact hax h
              · exact h2 h⟩

theorem nodup_firstDedupAux [BEq α] [LawfulBEq α] :
    ∀ (seen l : List α), (firstDedupAux seen l).Nodup
  | _, [] => List.nodup_nil
  | seen, x :: xs => by
    simp only [firstDedupAux]
    by_cases hc : seen.contains x = true
    · simp only [hc, if_true, ite_true]
      exact nodup_firstDedupAux seen xs
    · simp only [hc, Bool.false_eq_true, if_false, ite_false]
      refine List.nodup_cons.mpr ⟨?_, nodup_firstDedupAux (x :: seen) xs⟩
      intro hmem
      rcases (mem_firstDedupAux _ _ _).mp hmem with ⟨-, hnot⟩
      exact hnot (List.mem_cons_self _ _)

theorem mem_firstDedup [BEq α] [LawfulBEq α] {l : List α} {a : α} :
    a ∈ firstDedup l ↔ a ∈ l := by
  rw [firstDedup, mem_firstDedupAux]
  simp

theorem nodup_firstDedup [BEq α] [LawfulBEq α] (l : List α) : (firstDedup l).Nodup :=
  nodup_firstDedupAux [] l

theorem filter_of_map (f : α → β) (p : β → Bool) :
    ∀ l : List α, (l.map f).filter p = (l.filter (fun a => p (f a))).map f
  | [] => rfl
  | x :: xs => by
    simp only [List.map_cons, List.filter_cons]
    by_cases h : p (f x) = true
    · simp [h, filter_of_map f p xs]
    · simp [h, filter_of_map f p xs]

theorem filter_comm_aux (p q : α → Bool) :
    ∀ l : List α, (l.filter q).filter p = l.filter (fun a => p a && q a)
  | [] => rfl
  | x :: xs => by
    simp only [List.filter_cons]
    by_cases hq : q x = true
    · by_cases hp : p x = true
      · simp [hp, hq, List.filter_cons, filter_comm_aux p q xs]
      · simp [hp, hq, List.filter_cons, filter_comm_aux p q xs]
    · by_cases hp : p x = true
      · simp [hp, hq, filter_comm_aux p q xs]
      · simp [hp, hq, filter_comm_aux p q xs]

theorem map_congr_mem {f g : α → β} :
    ∀ {l : List α}, (∀ a ∈ l, f a = g a) → l.map f = l.map g
  | [], _ => rfl
  | x :: xs, h => by
    simp only [List.map_cons]
    rw [h x (List.mem_cons_self _ _),
      map_congr_mem (fun a ha => h a (List.mem_cons.mpr (Or.inr ha)))]

theorem filter_congr_mem {p q : α → Bool} :
    ∀ {l : List α}, (∀ a ∈ l, p a = q a) → l.filter p = l.filter q
  | [], _ => rfl
  | x :: xs, h => by
    simp only [List.filter_cons]
    rw [h x (List.mem_cons_self _ _),
      filter_congr_mem (fun a ha => h a (List.mem_cons.mpr (Or.inr ha)))]

theorem firstDedupAux_eq_filter [BEq α] [LawfulBEq α] :
    ∀ (seen l : List α),
      firstDedupAux seen l = firstDedup (l.filter (fun a => !(seen.contains a)))
  | _, [] => rfl
  | seen, x :: xs => by
    simp only [List.filter_cons]
    by_cases hc : seen.contains x = true
    · simp only [firstDedupAux, hc, if_true, ite_true, Bool.not_true, Bool.false_eq_true,
        if_false, ite_false]
      exact firstDedupAux_eq_filter seen xs
    · simp only [firstDedupAux, hc, Bool.false_eq_true, if_false, ite_false, Bool.not_false,
        if_true, ite_true]
      have hnil : (([] : List α).contains x) = false := rfl
      simp only [firstDedup, firstDedupAux, hnil, Bool.false_eq_true, if_false, ite_false]
      congr 1
      rw [firstDedupAux_eq_filter (x :: seen) xs, firstDedupAux_eq_filter [x] (xs.filter _)]
      simp only [firstDedup]
      congr 1
      rw [filter_comm_aux]
      apply filter_congr_mem
      intro a _
      simp [List.contains_cons, Bool.not_or, Bool.and_comm]
termination_by _ l => l.length
decreasing_by
  all_goals simp only [List.length_cons]
  · omega
  · omega
  · exact Nat.lt_succ_of_le (List.length_filter_le _ _)

theorem firstDedup_cons [BEq α] [LawfulBEq α] (x : α) (xs : List α) :
    firstDedup (x :: xs) = x :: firstDedup (xs.filter (fun y => y != x)) := by
  have hnil : (([] : List α).contains x) = false := rfl
  simp only [firstDedup, firstDedupAux, hnil, Bool.false_eq_true, if_false, ite_false]
  congr 1
  rw [firstDedupAux_eq_filter [x] xs]
  simp only [firstDedup]
  congr 1
  apply filter_congr_mem
  intro a _
  simp [List.contains_cons, bne, Bool.not_not]

theorem mem_groupsOf_shape {l : List ZcoLine} {g : String × List ZcoLine}
    (h : g ∈ groupsOf l) :
    g.2 = l.filter (fun r => r.salesOrder == g.1)
      ∧ g.1 ∈ l.map (fun r => r.salesOrder) := by
  rcases List.mem_map.mp h with ⟨so, hso, rfl⟩
  exact ⟨rfl, mem_firstDedup.mp hso⟩

theorem groupsOf_cons (r : ZcoLine) (rest : List ZcoLine) :
    groupsOf (r :: rest)
      = (r.salesOrder, r :: rest.filter (fun x => x.salesOrder == r.salesOrder)) ::
          groupsOf (rest.filter (fun x => x.salesOrder != r.salesOrder)) := by
  simp only [groupsOf, List.map_cons, firstDedup_cons]
  congr 1
  · simp [List.filter_cons]
  · rw [filter_of_map]
    apply map_congr_mem
    intro so hso
    have hne : so ≠ r.salesOrder := by
      have := mem_firstDedup.mp hso
      rcases List.mem_map.mp this with ⟨x, hx, rfl⟩
      have := (List.mem_filter.mp hx).2
      simpa using this
    have hhead : (r.salesOrder == so) = false := by
      simpa using fun hc : r.salesOrder = so => hne hc.symm
    simp only [List.filter_cons, hhead, Bool.false_eq_true, if_false, ite_false]
    congr 1
    rw [filter_comm_aux]
    apply filter_congr_mem
    intro x _
    by_cases hx : (x.salesOrder == so) = true
    · have : x.salesOrder = so := by simpa using hx
      have : (x.salesOrder != r.salesOrder) = true := by
        simpa [this] using hne
      simp [hx, this]
    · simp [hx]

/-! ### Minimum ship date and group ordering lemmas -/

theorem foldl_min_le : ∀ (ds : List Int) (d : Int), ∀ e ∈ d :: ds, List.foldl min d ds ≤ e
  | [], d, e, he => by
    rcases List.mem_cons.mp he with heq | he
    · rw [heq]
      exact le_refl _
    · simp at he
  | x :: xs, d, e, he => by
    simp only [List.foldl_cons]
    rcases List.mem_cons.mp he with heq | he
    · rw [heq]
      exact le_trans (foldl_min_le xs (min d x) _ (List.mem_cons_self _ _)) (min_le_left d x)
    · rcases List.mem_cons.mp he with heq | he
      · rw [heq]
        exact le_trans (foldl_min_le xs (min d x) _ (List.mem_cons_self _ _))
          (min_le_right d x)
      · exact foldl_min_le xs (min d x) e (List.mem_cons.mpr (Or.inr he))

theorem foldl_min_mem : ∀ (ds : List Int) (d : Int), List.foldl min d ds ∈ d :: ds
  | [], _ => List.mem_cons_self _ _
  | x :: xs, d => by
    simp only [List.foldl_cons]
    rcases List.mem_cons.mp (foldl_min_mem xs (min d x)) with h | h
    · rcases le_total d x with hdx | hxd
      · rw [h, min_eq_left hdx]
        exact List.mem_cons_self _ _
      · rw [h, min_eq_right hxd]
        exact List.mem_cons.mpr (Or.inr (List.mem_cons_self _ _))
    · exact List.mem_cons.mpr (Or.inr (List.mem_cons.mpr (Or.inr h)))

theorem estShipMin_spec (lines : List ZcoLine) :
    (estShipMin lines = none ∧ ∀ x ∈ lines, x.estShip = none) ∨
      (∃ m, estShipMin lines = some m ∧ (∃ x ∈ lines, x.estShip = some m) ∧
        ∀ x ∈ lines, ∀ e, x.estShip = some e → m ≤ e) := by
  cases hf : lines.filterMap (fun r => r.estShip) with
  | nil =>
    left
    refine ⟨by simp [estShipMin, hf], ?_⟩
    intro x hx
    exact List.filterMap_eq_nil_iff.mp hf x hx
  | cons d ds =>
    right
    refine ⟨ds.foldl min d, by simp [estShipMin, hf], ?_, ?_⟩
    · have hm := foldl_min_mem ds d
      rw [← hf] at hm
      rcases List.mem_filterMap.mp hm with ⟨x, hx, hxe⟩
      exact ⟨x, hx, hxe⟩
    · intro x hx e he
      have hmem : e ∈ lines.filterMap (fun r => r.estShip) :=
        List.mem_filterMap.mpr ⟨x, hx, he⟩
      rw [hf] at hmem
      exact foldl_min_le ds d e hmem

theorem lineLE_dk {a b : ZcoLine} (h : lineLE a b = true) :
    dkLt a.estShip b.estShip = true ∨ a.estShip = b.estShip := by
  simp only [lineLE, keyLE, Bool.or_eq_true, Bool.and_eq_true, beq_iff_eq] at h
  rcases h with h | ⟨he, -⟩
  · exact Or.inl h
  · exact Or.inr he

theorem lineLE_so_ne {a b : ZcoLine} (h : lineLE a b = true)
    (hso : a.salesOrder ≠ b.salesOrder) :
    dkLt a.estShip b.estShip = true ∨
      (a.estShip = b.estShip ∧ strLt a.salesOrder b.salesOrder = true) := by
  simp only [lineLE, keyLE, Bool.or_eq_true, Bool.and_eq_true, beq_iff_eq] at h
  rcases h with h | ⟨he, h⟩
  · exact Or.inl h
  · rcases h with h | ⟨hs, -⟩
    · exact Or.inr ⟨he, h⟩
    · exact absurd hs hso

theorem estShipMin_of_head {h : ZcoLine} {t : List ZcoLine}
    (hall : ∀ x ∈ t, dkLt h.estShip x.estShip = true ∨ h.estShip = x.estShip) :
    estShipMin (h :: t) = h.estShip := by
  cases he : h.estShip with
  | none =>
    have hnone : ∀ x ∈ h :: t, x.estShip = none := by
      intro x hx
      rcases List.mem_cons.mp hx with rfl | hx
      · exact he
      · rcases hall x hx with hd | hd
        · rw [he] at hd
          simp [dkLt] at hd
        · rw [he] at hd
          exact hd.symm
    have : (h :: t).filterMap (fun r => r.estShip) = [] :=
      List.filterMap_eq_nil_iff.mpr hnone
    simp [estShipMin, this]
  | some d =>
    rcases estShipMin_spec (h :: t) with ⟨-, hnone⟩ | ⟨m, hm, ⟨x, hx, hxe⟩, hlb⟩
    · have hc := hnone h (List.mem_cons_self _ _)
      rw [he] at hc
      cases hc
    · have hmd : m ≤ d := hlb h (List.mem_cons_self _ _) d he
      have hdm : d ≤ m := by
        rcases List.mem_cons.mp hx with heq | hx2
        · rw [heq, he] at hxe
          exact le_of_eq (Option.some.inj hxe)
        · rcases hall x hx2 with hd | hd
          · rw [he, hxe] at hd
            simp only [dkLt, decide_eq_true_eq] at hd
            exact le_of_lt hd
          · rw [he, hxe] at hd
            exact le_of_eq (Option.some.inj hd)
      rw [hm, le_antisymm hmd hdm, he.symm]

theorem groupsOf_member_pairwise {l : List ZcoLine}
    (hp : l.Pairwise (fun a b => lineLE a b = true))
    {g : String × List ZcoLine} (hg : g ∈ groupsOf l) :
    g.2.Pairwise (fun a b => lineLE a b = true) ∧ ∀ x ∈ g.2, x.salesOrder = g.1 := by
  obtain ⟨hshape, -⟩ := mem_groupsOf_shape hg
  constructor
  · rw [hshape]
    exact hp.filter _
  · intro x hx
    rw [hshape] at hx
    have := (List.mem_filter.mp hx).2
    simpa using this

theorem groupsOf_sorted_pairwise :
    ∀ l : List ZcoLine, l.Pairwise (fun a b => lineLE a b = true) →
      (groupsOf l).Pairwise groupLT
  | [], _ => by simp [groupsOf, firstDedup, firstDedupAux]
  | r :: rest, hp => by
    rcases List.pairwise_cons.mp hp with ⟨hr, hrest⟩
    rw [groupsOf_cons]
    refine List.pairwise_cons.mpr ⟨?_, ?_⟩
    · intro g' hg'
      obtain ⟨hshape, hkey⟩ := mem_groupsOf_shape hg'
      rcases List.mem_map.mp hkey with ⟨w, hwmem, hwso⟩
      have hw2 : w ∈ g'.2 := by
        rw [hshape]
        exact List.mem_filter.mpr ⟨hwmem, by simpa using hwso⟩
      have hmemrest : ∀ x ∈ g'.2, x ∈ rest ∧ x.salesOrder ≠ r.salesOrder := by
        intro x hx
        rw [hshape] at hx
        have hx1 := (List.mem_filter.mp hx).1
        have hx2 := (List.mem_filter.mp hx1).1
        have hx3 := (List.mem_filter.mp hx1).2
        exact ⟨hx2, by simpa using hx3⟩
      have hdich : ∀ x ∈ g'.2,
          dkLt r.estShip x.estShip = true ∨
            (r.estShip = x.estShip ∧ strLt r.salesOrder x.salesOrder = true) := by
        intro x hx
        rcases hmemrest x hx with ⟨hxr, hxso⟩
        exact lineLE_so_ne (hr x hxr) (fun hc => hxso hc.symm)
      have hhead : estShipMin
          (r :: rest.filter (fun x => x.salesOrder == r.salesOrder)) = r.estShip := by
        apply estShipMin_of_head
        intro x hx
        have hxr : x ∈ rest := (List.mem_filter.mp hx).1
        exact lineLE_dk (hr x hxr)
      have hso' : ∀ x ∈ g'.2, x.salesOrder = g'.1 := by
        intro x hx
        rw [hshape] at hx
        have := (List.mem_filter.mp hx).2
        simpa using this
      rcases estShipMin_spec g'.2 with ⟨hmin, hnone⟩ | ⟨m, hm, ⟨x, hx, hxe⟩, hlb⟩
      · rcases hdich w hw2 with hd | ⟨hd, hs⟩
        · left
          simp only [groupLT, hhead, hmin]
          rw [hnone w hw2] at hd
          cases hre : r.estShip with
          | none =>
            rw [hre] at hd
            simp [dkLt] at hd
          | some d => simp [dkLt]
        · right
          rw [hnone w hw2] at hd
          constructor
          · rw [hhead, hmin, hd]
          · rw [← hwso]
            exact hs
      · rcases hdich x hx with hd | ⟨hd, hs⟩
        · left
          rw [hhead, hm, ← hxe]
          exact hd
        · right
          constructor
          · rw [hhead, hm, ← hxe, hd]
          · rw [← hso' x hx]
            exact hs
    · exact groupsOf_sorted_pairwise (rest.filter _)
        (hrest.sublist (List.filter_sublist _))
termination_by l => l.length
decreasing_by
  simp only [List.length_cons]
  exact Nat.lt_succ_of_le (List.length_filter_le _ _)

/-! ### Commit arithmetic and nonnegativity lemmas -/

theorem commit_filter_map (avail : AvailMap) (grp : List ZcoLine) (k : Option String) :
    ((grp.map (checkLine avail)).filter (fun c => c.line.nonCustom == k)).map
        (fun c => c.line.qty)
      = (grp.filter (fun r => r.nonCustom == k)).map (fun r => r.qty) := by
  have h1 : (grp.map (checkLine avail)).filter (fun c => c.line.nonCustom == k)
      = (grp.filter (fun r => r.nonCustom == k)).map (checkLine avail) := by
    rw [filter_of_map]
    congr 1
    apply filter_congr_mem
    intro r _
    rw [checkLine_line]
  rw [h1, List.map_map]
  apply map_congr_mem
  intro r _
  simp [checkLine_line]

theorem dget_commit_lines (avail : AvailMap) (grp : List ZcoLine) (k : Option String) :
    dget (commitGroup avail (grp.map (checkLine avail))) k
      = dget avail k - groupReq grp k := by
  rw [dget_commit, commit_filter_map]
  rfl

theorem filter_single_of_nodup :
    ∀ (grp : List ZcoLine) (sku : String),
      (grp.filterMap (fun r => r.nonCustom)).Nodup →
      grp.filter (fun r => r.nonCustom == some sku) = [] ∨
        ∃ r ∈ grp, r.nonCustom = some sku ∧
          grp.filter (fun r => r.nonCustom == some sku) = [r]
  | [], _, _ => Or.inl rfl
  | x :: grp, sku, hnd => by
    cases hx : x.nonCustom with
    | none =>
      have hnd' : (grp.filterMap (fun r => r.nonCustom)).Nodup := by
        simpa [List.filterMap_cons, hx] using hnd
      have hpred : (x.nonCustom == some sku) = false := by
        rw [hx]
        rfl
      rcases filter_single_of_nodup grp sku hnd' with h | ⟨r, hr, hrsku, hfil⟩
      · left
        simp [List.filter_cons, hpred, h]
      · right
        exact ⟨r, List.mem_cons.mpr (Or.inr hr), hrsku,
          by simp [List.filter_cons, hpred, hfil]⟩
    | some s =>
      have hnd2 : s ∉ grp.filterMap (fun r => r.nonCustom)
          ∧ (grp.filterMap (fun r => r.nonCustom)).Nodup := by
        simp only [List.filterMap_cons, hx] at hnd
        exact List.nodup_cons.mp hnd
      by_cases hss : s = sku
      · subst hss
        right
        refine ⟨x, List.mem_cons_self _ _, hx, ?_⟩
        have hpred : (x.nonCustom == some s) = true := by
          rw [hx]
          exact beq_self_eq_true _
        simp only [List.filter_cons, hpred, if_true, ite_true]
        rw [List.filter_eq_nil_iff.mpr ?_]
        intro r hr hpredr
        have hreq : r.nonCustom = some s := by simpa using hpredr
        exact hnd2.1 (List.mem_filterMap.mpr ⟨r, hr, hreq⟩)
      · have hpred : (x.nonCustom == some sku) = false := by
          rw [hx]
          exact beq_eq_false_iff_ne.mpr (fun hc => hss (Option.some.inj hc))
        rcases filter_single_of_nodup grp sku hnd2.2 with h | ⟨r, hr, hrsku, hfil⟩
        · left
          simp [List.filter_cons, hpred, h]
        · right
          exact ⟨r, List.mem_cons.mpr (Or.inr hr), hrsku,
            by simp [List.filter_cons, hpred, hfil]⟩

theorem evalGroup_step_nonneg (avail : AvailMap) (so : String) (grp : List ZcoLine)
    (hinv : ∀ k, 0 ≤ dget avail k)
    (hnd : (grp.filterMap (fun r => r.nonCustom)).Nodup) :
    ∀ k, 0 ≤ dget (evalGroup avail so grp).1 k := by
  intro k
  rw [evalGroup_fst]
  by_cases hok : (grp.map (checkLine avail)).all (fun c => c.ok) = true
  · simp only [hok, if_true, ite_true]
    rw [dget_commit_lines]
    cases k with
    | none =>
      have hzero : groupReq grp none = 0 := by
        unfold groupReq
        rw [List.filter_eq_nil_iff.mpr ?_]
        · rfl
        · intro r hr hpred
          have hnone : r.nonCustom = none := by simpa using hpred
          have hck := List.all_eq_true.mp hok (checkLine avail r)
            (List.mem_map_of_mem _ hr)
          rw [checkLine_unmapped avail hnone] at hck
          simp at hck
      rw [hzero, sub_zero]
      exact hinv none
    | some sku =>
      rcases filter_single_of_nodup grp sku hnd with h | ⟨r, hr, hrsku, hfil⟩
      · have hzero : groupReq grp (some sku) = 0 := by
          unfold groupReq
          rw [h]
          rfl
        rw [hzero, sub_zero]
        exact hinv _
      · have hgr : groupReq grp (some sku) = r.qty := by
          unfold groupReq
          rw [hfil]
          simp
        rw [hgr]
        have hck := List.all_eq_true.mp hok (checkLine avail r)
          (List.mem_map_of_mem _ hr)
        rcases (checkLine_ok_iff avail r).mp hck with ⟨sku2, hsku2, hle⟩
        rw [hrsku] at hsku2
        obtain rfl : sku = sku2 := Option.some.inj hsku2
        exact sub_nonneg.mpr hle
  · rw [Bool.not_eq_true] at hok
    simp only [hok, Bool.false_eq_true, if_false, ite_false]
    exact hinv k

theorem poolAfterGroups_nonneg :
    ∀ (gs : List (String × List ZcoLine)) (avail : AvailMap),
      (∀ k, 0 ≤ dget avail k) →
      (∀ g ∈ gs, (g.2.filterMap (fun r => r.nonCustom)).Nodup) →
      ∀ k, 0 ≤ dget (poolAfterGroups avail gs) k
  | [], _, hinv, _, k => hinv k
  | g :: gs, avail, hinv, hgs, k => by
    simp only [poolAfterGroups, List.foldl_cons]
    exact poolAfterGroups_nonneg gs _
      (evalGroup_step_nonneg avail g.1 g.2 hinv (hgs g (List.mem_cons_self _ _)))
      (fun g' hg' => hgs g' (List.mem_cons.mpr (Or.inr hg'))) k

/-! ### Claim theorems -/

/-- C1: in the reconciliation evaluator, a demand group's summary row is
accepted (status `PASAR`, modelled `true`) exactly when every one of its
lines is OK against the pool state current when the group is reached; on
rejection the pool is left exactly as it was before the group, and on
acceptance the pool is the result of committing every line's decrement,
where all lines were checked against the pre-group pool (check-then-commit). -/
theorem C1_group_atomicity (zco : List ZcoLine) (invAfter : List (String × ℚ))
    (pre : List (String × List ZcoLine)) (g : String × List ZcoLine)
    (post : List (String × List ZcoLine))
    (h : groupsOf (ssort lineLE zco) = pre ++ g :: post) :
    (evalGroups (init_avail invAfter) (groupsOf (ssort lineLE zco))).2.1[pre.length]?
        = some (evalGroup (poolAfterGroups (init_avail invAfter) pre) g.1 g.2).2.1
    ∧ ((evalGroup (poolAfterGroups (init_avail invAfter) pre) g.1 g.2).2.1.status = true
        ↔ ∀ r ∈ g.2, LineOK (poolAfterGroups (init_avail invAfter) pre) r)
    ∧ ((evalGroup (poolAfterGroups (init_avail invAfter) pre) g.1 g.2).2.1.status = false
        → (evalGroup (poolAfterGroups (init_avail invAfter) pre) g.1 g.2).1
            = poolAfterGroups (init_avail invAfter) pre)
    ∧ ((evalGroup (poolAfterGroups (init_avail invAfter) pre) g.1 g.2).2.1.status = true
        → (evalGroup (poolAfterGroups (init_avail invAfter) pre) g.1 g.2).1
            = commitGroup (poolAfterGroups (init_avail invAfter) pre)
                (g.2.map (checkLine (poolAfterGroups (init_avail invAfter) pre))))
    ∧ poolAfterGroups (init_avail invAfter) (pre ++ [g])
        = (evalGroup (poolAfterGroups (init_avail invAfter) pre) g.1 g.2).1 := by
  refine ⟨?_, ?_, ?_, ?_, ?_⟩
  · rw [h]
    exact evalGroups_orders pre _ g post
  · rw [evalGroup_status, List.all_eq_true]
    constructor
    · intro hall r hr
      exact (checkLine_ok_iff _ r).mp (hall (checkLine _ r) (List.mem_map_of_mem _ hr))
    · intro hok c hc
      rcases List.mem_map.mp hc with ⟨r, hr, rfl⟩
      exact (checkLine_ok_iff _ r).mpr (hok r hr)
  · intro hst
    rw [evalGroup_status] at hst
    rw [evalGroup_fst, hst]
    simp
  · intro hst
    rw [evalGroup_status] at hst
    rw [evalGroup_fst, hst]
    simp
  · rw [poolAfterGroups_append]
    rfl

/-- Witness for C1 at a concrete one-group run. -/
theorem C1_group_atomicity_witness :
    ((evalGroup (poolAfterGroups (init_avail [("X", (8:ℚ))]) [])
        ("SO1", [(⟨5, some 0, "SO1", "A", some "X"⟩ : ZcoLine)]).1
        ("SO1", [(⟨5, some 0, "SO1", "A", some "X"⟩ : ZcoLine)]).2).2.1.status = true
      ↔ ∀ r ∈ ("SO1", [(⟨5, some 0, "SO1", "A", some "X"⟩ : ZcoLine)]).2,
          LineOK (poolAfterGroups (init_avail [("X", (8:ℚ))]) []) r) :=
  (C1_group_atomicity [⟨5, some 0, "SO1", "A", some "X"⟩] [("X", 8)] []
    ("SO1", [⟨5, some 0, "SO1", "A", some "X"⟩]) [] (by decide)).2.1

/-- C2: conservation — for an accepted group, the pool value of every key
drops by exactly the sum of the group's requested quantities on that key;
for a rejected group the pool dictionary is exactly unchanged. -/
theorem C2_conservation (zco : List ZcoLine) (invAfter : List (String × ℚ))
    (pre : List (String × List ZcoLine)) (g : String × List ZcoLine)
    (post : List (String × List ZcoLine))
    (h : groupsOf (ssort lineLE zco) = pre ++ g :: post) :
    ((evalGroup (poolAfterGroups (init_avail invAfter) pre) g.1 g.2).2.1.status = true
      → ∀ k, dget (evalGroup (poolAfterGroups (init_avail invAfter) pre) g.1 g.2).1 k
          = dget (poolAfterGroups (init_avail invAfter) pre) k - groupReq g.2 k)
    ∧ ((evalGroup (poolAfterGroups (init_avail invAfter) pre) g.1 g.2).2.1.status = false
      → (evalGroup (poolAfterGroups (init_avail invAfter) pre) g.1 g.2).1
          = poolAfterGroups (init_avail invAfter) pre) := by
  constructor
  · intro hst k
    rw [evalGroup_status] at hst
    rw [evalGroup_fst, hst]
    simp only [if_true, ite_true]
    exact dget_commit_lines _ _ _
  · intro hst
    rw [evalGroup_status] at hst
    rw [evalGroup_fst, hst]
    simp

/-- Witness for C2 at a concrete accepted group and key. -/
theorem C2_conservation_witness :
    dget (evalGroup (poolAfterGroups (init_avail [("X", (8:ℚ))]) [])
        ("SO1", [(⟨5, some 0, "SO1", "A", some "X"⟩ : ZcoLine)]).1
        ("SO1", [(⟨5, some 0, "SO1", "A", some "X"⟩ : ZcoLine)]).2).1 (some "X")
      = dget (poolAfterGroups (init_avail [("X", (8:ℚ))]) []) (some "X")
        - groupReq ("SO1", [(⟨5, some 0, "SO1", "A", some "X"⟩ : ZcoLine)]).2 (some "X") :=
  (C2_conservation [⟨5, some 0, "SO1", "A", some "X"⟩] [("X", 8)] []
    ("SO1", [⟨5, some 0, "SO1", "A", some "X"⟩]) [] (by decide)).1 (by decide) (some "X")

/-- C4 counterexample: with a non-negative initial pool and non-negative
requested quantities, one accepted group holding two lines on the same
identifier drives that identifier's final availability below zero, because
both lines are checked against the pre-group pool and the decrement is
unconditional. -/
theorem C4_counterexample :
    (∀ p ∈ [(("X" : String), (8:ℚ))], 0 ≤ p.2)
    ∧ (∀ r ∈ [(⟨5, some 0, "SO1", "A", some "X"⟩ : ZcoLine),
        ⟨5, some 0, "SO1", "A", some "X"⟩], 0 ≤ r.qty)
    ∧ dget (evaluate_orders [(⟨5, some 0, "SO1", "A", some "X"⟩ : ZcoLine),
        ⟨5, some 0, "SO1", "A", some "X"⟩] [("X", 8)]).2.2 (some "X") < 0 := by
  refine ⟨by decide, by decide, by decide⟩

/-- C4 (amended): if every initial availability is non-negative, every
requested quantity is non-negative, and no two lines of any single
evaluated group carry the same mapped identifier, then every availability
in the final pool is non-negative. -/
theorem C4_no_negative_after_acceptance (zco : List ZcoLine)
    (invAfter : List (String × ℚ))
    (h0 : ∀ p ∈ invAfter, 0 ≤ p.2)
    (hq : ∀ r ∈ zco, 0 ≤ r.qty)
    (hnd : ∀ g ∈ groupsOf (ssort lineLE zco),
      (g.2.filterMap (fun r => r.nonCustom)).Nodup) :
    ∀ k, 0 ≤ dget (evaluate_orders zco invAfter).2.2 k := by
  intro k
  have h1 : (evaluate_orders zco invAfter).2.2
      = (evalGroups (init_avail invAfter) (groupsOf (ssort lineLE zco))).1 := rfl
  rw [h1, evalGroups_fst]
  apply poolAfterGroups_nonneg
  · intro k2
    apply dget_nonneg
    intro p hp
    rcases List.mem_map.mp hp with ⟨q0, hq0, rfl⟩
    exact h0 q0 hq0
  · exact hnd

/-- Witness for the amended C4 at a concrete run. -/
theorem C4_no_negative_after_acceptance_witness :
    (∀ g ∈ groupsOf (ssort lineLE [(⟨5, some 0, "SO1", "A", some "X"⟩ : ZcoLine)]),
        (g.2.filterMap (fun r => r.nonCustom)).Nodup)
    ∧ ∀ k, 0 ≤ dget (evaluate_orders
        [(⟨5, some 0, "SO1", "A", some "X"⟩ : ZcoLine)] [("X", 8)]).2.2 k :=
  ⟨by decide, C4_no_negative_after_acceptance _ _ (by decide) (by decide) (by decide)⟩

/-- C5: the evaluator processes groups in strictly ascending order of
(minimum ship date within the group, group identifier) with missing dates
last; within each group, lines are processed in ascending order of the
full sort key (ship date, group identifier, original pre-mapping
identifier), the group's key being constant on its lines; and the
processing order is the stable sort of the input: the sorted sequence of
index-tagged lines is ordered by the key comparison, with any tie (both
comparisons true) broken by ascending original input position.  The
evaluation itself is a pure function of its input, so two runs on
identical input are identical. -/
theorem C5_evaluation_order (zco : List ZcoLine) :
    (groupsOf (ssort lineLE zco)).Pairwise groupLT
    ∧ (∀ g ∈ groupsOf (ssort lineLE zco),
        g.2.Pairwise (fun a b => lineLE a b = true) ∧ ∀ x ∈ g.2, x.salesOrder = g.1)
    ∧ (ssort (fun a b => lineLE a.2 b.2) zco.enum).map Prod.snd = ssort lineLE zco
    ∧ (ssort (fun a b => lineLE a.2 b.2) zco.enum).Pairwise
        (fun a b => lineLE a.2 b.2 = true ∧ (lineLE b.2 a.2 = true → a.1 < b.1)) := by
  have hsorted : (ssort lineLE zco).Pairwise (fun a b => lineLE a b = true) :=
    pairwise_ssort lineLE lineLE_total (fun h1 h2 => lineLE_trans h1 h2) zco
  refine ⟨groupsOf_sorted_pairwise _ hsorted, ?_, ?_, ?_⟩
  · intro g hg
    exact groupsOf_member_pairwise hsorted hg
  · rw [ssort_map Prod.snd lineLE zco.enum,
      show zco.enum.map Prod.snd = zco from List.enumFrom_map_snd 0 zco]
  · exact ssort_stable lineLE_total (fun h1 h2 => lineLE_trans h1 h2) zco.enum
      (pairwise_enum_fst_lt zco)

/-- Witness for C5 at a concrete two-group input. -/
theorem C5_evaluation_order_witness :
    (("SO1", [(⟨5, some 0, "SO1", "A", some "X"⟩ : ZcoLine)])
        ∈ groupsOf (ssort lineLE [(⟨2, some 3, "SO2", "B", some "Y"⟩ : ZcoLine),
          ⟨5, some 0, "SO1", "A", some "X"⟩]))
    ∧ (("SO1", [(⟨5, some 0, "SO1", "A", some "X"⟩ : ZcoLine)]).2.Pairwise
          (fun a b => lineLE a b = true)
        ∧ ∀ x ∈ ("SO1", [(⟨5, some 0, "SO1", "A", some "X"⟩ : ZcoLine)]).2,
            x.salesOrder = ("SO1", [(⟨5, some 0, "SO1", "A", some "X"⟩ : ZcoLine)]).1) :=
  ⟨by decide,
    (C5_evaluation_order [⟨2, some 3, "SO2", "B", some "Y"⟩,
      ⟨5, some 0, "SO1", "A", some "X"⟩]).2.1
      ("SO1", [⟨5, some 0, "SO1", "A", some "X"⟩]) (by decide)⟩

theorem lookupD_keyMap : ∀ (ks : List String) (f : String → ℚ) (id : String),
    lookupD (ks.map (fun i => (i, f i))) id = if id ∈ ks then some (f id) else none
  | [], _, _ => by simp [lookupD]
  | k :: ks, f, id => by
    by_cases h : (k == id) = true
    · have hk : k = id := by simpa using h
      subst hk
      simp [lookupD, List.find?_cons, List.mem_cons]
    · have h' : (k == id) = false := by
        cases hb : (k == id) with
        | true => exact absurd hb h
        | false => rfl
      have hne : id ≠ k := fun hc => h (by simpa using hc.symm)
      have hstep : lookupD ((k :: ks).map (fun i => (i, f i))) id
          = lookupD (ks.map (fun i => (i, f i))) id := by
        simp [lookupD, List.find?_cons, h']
      rw [hstep, lookupD_keyMap ks f id]
      by_cases hmem : id ∈ ks
      · simp [hmem, List.mem_cons, hne]
      · simp [hmem, List.mem_cons, hne]

theorem lookupD_inv_after : ∀ (M D : List (String × ℚ)) (id : String),
    lookupD (inv_after M D) id
      = (lookupD M id).map (fun v => v - (lookupD D id).getD 0)
  | [], _, _ => rfl
  | p :: M, D, id => by
    by_cases h : (p.1 == id) = true
    · have hp : p.1 = id := by simpa using h
      subst hp
      simp [inv_after, lookupD, List.find?_cons, h]
    · have h' : (p.1 == id) = false := by
        cases hb : (p.1 == id) with
        | true => exact absurd hb h
        | false => rfl
      have hstep1 : lookupD (inv_after (p :: M) D) id = lookupD (inv_after M D) id := by
        simp [inv_after, lookupD, List.find?_cons, h']
      have hstep2 : lookupD (p :: M) id = lookupD M id := by
        simp [lookupD, List.find?_cons, h']
      rw [hstep1, hstep2, lookupD_inv_after M D id]

theorem mem_supply_keys (mb52 : List MB52Row) (id : String) :
    id ∈ ssort strLE (firstDedup (mb52.map (fun r => r.nonCustom)))
      ↔ ∃ r ∈ mb52, r.nonCustom = id := by
  rw [mem_ssort, mem_firstDedup, List.mem_map]

theorem lookupD_prep_mb52 (mb52 : List MB52Row) (id : String) :
    lookupD (prep_mb52 mb52) id
      = if ∃ r ∈ mb52, r.nonCustom = id then some (supplySum mb52 id) else none := by
  unfold prep_mb52
  rw [lookupD_keyMap]
  exact if_congr (mem_supply_keys mb52 id) rfl rfl

theorem cooisDemand_lookup (lines : List ZcoLine) (id : String) :
    (lookupD ((ssort strLE (firstDedup (lines.filterMap (fun l => l.nonCustom)))).map
        (fun i => (i, cooisDemandSum lines i))) id).getD 0
      = cooisDemandSum lines id := by
  rw [lookupD_keyMap]
  by_cases hmem : id ∈ ssort strLE (firstDedup (lines.filterMap (fun l => l.nonCustom)))
  · simp [hmem]
  · simp only [hmem, if_false, ite_false, Option.getD_none]
    have hnil : lines.filter (fun l => l.nonCustom == some id) = [] := by
      rw [List.filter_eq_nil_iff]
      intro l hl hpred
      apply hmem
      rw [mem_ssort, mem_firstDedup]
      exact List.mem_filterMap.mpr ⟨l, hl, by simpa using hpred⟩
    unfold cooisDemandSum
    rw [hnil]
    rfl

/-- C3 counterexample: an identifier with committed firm demand but no
supply row is dropped by the left merge that builds `inv_after`, so the
evaluator reads availability 0 for it, not supply minus committed demand
(which would be −5 here). -/
theorem C3_counterexample :
    dget (init_avail (inv_after (prep_mb52 [])
        (prep_coois [⟨some 5, some 0, "SO1", "X"⟩] (build_xref_map [("X", "X")])).2.2))
      (some "X")
    ≠ supplySum [] "X"
      - cooisDemandSum ([(⟨some 5, some 0, "SO1", "X"⟩ : RawRow)].map
          (prepLine (build_xref_map [("X", "X")]))) "X" := by
  decide

/-- C3 (amended): for an identifier that has a supply row, the availability
the evaluator reads equals aggregated supply minus aggregated mapped firm
demand (an identifier absent from the firm-demand source contributes 0);
an identifier with no supply row is read as 0, even when it has committed
demand. -/
theorem C3_pool_initialization (mb52 : List MB52Row) (coois : List RawRow)
    (xm : List (String × String)) (id : String) :
    ((∃ r ∈ mb52, r.nonCustom = id) →
      dget (init_avail (inv_after (prep_mb52 mb52) (prep_coois coois xm).2.2)) (some id)
        = supplySum mb52 id - cooisDemandSum (coois.map (prepLine xm)) id)
    ∧ ((∀ r ∈ mb52, r.nonCustom ≠ id) →
      dget (init_avail (inv_after (prep_mb52 mb52) (prep_coois coois xm).2.2)) (some id)
        = 0) := by
  have hD : (prep_coois coois xm).2.2
      = (ssort strLE (firstDedup ((coois.map (prepLine xm)).filterMap
          (fun l => l.nonCustom)))).map
        (fun i => (i, cooisDemandSum (coois.map (prepLine xm)) i)) := rfl
  constructor
  · intro hex
    rw [dget_init_avail, lookupD_inv_after, lookupD_prep_mb52, if_pos hex]
    simp only [Option.map_some', Option.getD_some]
    rw [hD, cooisDemand_lookup]
  · intro hall
    rw [dget_init_avail, lookupD_inv_after, lookupD_prep_mb52, if_neg ?_]
    · rfl
    · rintro ⟨r, hr, hid⟩
      exact hall r hr hid

/-- Witness for the amended C3 at concrete tables. -/
theorem C3_pool_initialization_witness :
    (∃ r ∈ [(⟨some 3, "X"⟩ : MB52Row)], r.nonCustom = "X")
    ∧ dget (init_avail (inv_after (prep_mb52 [(⟨some 3, "X"⟩ : MB52Row)])
        (prep_coois [⟨some 5, some 0, "SO1", "X"⟩]
          (build_xref_map [("X", "X")])).2.2)) (some "X")
      = supplySum [(⟨some 3, "X"⟩ : MB52Row)] "X"
        - cooisDemandSum ([(⟨some 5, some 0, "SO1", "X"⟩ : RawRow)].map
            (prepLine (build_xref_map [("X", "X")]))) "X" :=
  ⟨by decide, (C3_pool_initialization [⟨some 3, "X"⟩] [⟨some 5, some 0, "SO1", "X"⟩]
    (build_xref_map [("X", "X")]) "X").1 (by decide)⟩

/-- C7: a line appears in the past-due ZCO41 report exactly when it is an
evaluated line whose ship date is non-null and strictly earlier than the
supplied current date; a line dated exactly today, or with an unparsable
(null) date, is not past due. -/
theorem C7_past_due_filter (linesDf : List LineOut) (today : Int) (l : LineOut) :
    l ∈ build_past_due_zco linesDf today
      ↔ l ∈ linesDf ∧ ∃ d, l.estShip = some d ∧ d < today := by
  unfold build_past_due_zco
  rw [mem_ssort, List.mem_filter]
  constructor
  · rintro ⟨h1, h2⟩
    refine ⟨h1, ?_⟩
    have h2' : (match l.estShip with
        | some d => decide (d < today)
        | none => false) = true := h2
    cases he : l.estShip with
    | none =>
      rw [he] at h2'
      cases h2'
    | some d =>
      rw [he] at h2'
      exact ⟨d, rfl, by simpa using h2'⟩
  · rintro ⟨h1, d, hd, hlt⟩
    refine ⟨h1, ?_⟩
    show (match l.estShip with
        | some d => decide (d < today)
        | none => false) = true
    rw [hd]
    simpa using hlt

/-- C8: a demand line whose trimmed identifier is missing from the
cross-reference map does not make the preparation fail; its identifier
appears exactly once in the deduplicated, sorted unmapped-identifier list;
in the evaluator such a line is always NOT-OK with the distinct
`sinMapeo` note, whatever the pool state, and its whole group is
rejected. -/
theorem C8_unmapped_handling (rows : List RawRow) (xm : List (String × String)) :
    (∀ r ∈ rows, map_custom_to_non xm r.custom = none →
        (prep_zco41 rows xm).2.count r.custom = 1)
    ∧ (prep_zco41 rows xm).2.Pairwise (fun a b => strLE a b = true)
    ∧ (∀ (avail : AvailMap) (r : ZcoLine), r.nonCustom = none →
        checkLine avail r = ⟨r, false, r.qty, Nota.sinMapeo⟩)
    ∧ (∀ (avail : AvailMap) (so : String) (grp : List ZcoLine),
        (∃ r ∈ grp, r.nonCustom = none) → (evalGroup avail so grp).2.1.status = false) := by
  refine ⟨?_, ?_, ?_, ?_⟩
  · intro r hr hnone
    have hline : prepLine xm r ∈ (rows.map (prepLine xm)).filter
        (fun l => l.nonCustom == none) := by
      apply List.mem_filter.mpr
      refine ⟨List.mem_map_of_mem _ hr, ?_⟩
      show ((prepLine xm r).nonCustom == none) = true
      rw [show (prepLine xm r).nonCustom = none from hnone]
      rfl
    have hmem : r.custom ∈ ((rows.map (prepLine xm)).filter
        (fun l => l.nonCustom == none)).map (fun l => l.custom) :=
      List.mem_map.mpr ⟨prepLine xm r, hline, rfl⟩
    show (unmappedOf (rows.map (prepLine xm))).count r.custom = 1
    unfold unmappedOf
    rw [count_ssort]
    exact List.count_eq_one_of_mem (nodup_firstDedup _) (mem_firstDedup.mpr hmem)
  · show (unmappedOf (rows.map (prepLine xm))).Pairwise (fun a b => strLE a b = true)
    unfold unmappedOf
    exact pairwise_ssort strLE strLE_total (fun h1 h2 => strLE_trans h1 h2) _
  · intro avail r hr
    exact checkLine_unmapped avail hr
  · rintro avail so grp ⟨r, hr, hnone⟩
    rw [evalGroup_status]
    apply List.all_eq_false.mpr
    refine ⟨checkLine avail r, List.mem_map_of_mem _ hr, ?_⟩
    rw [checkLine_unmapped avail hnone]
    simp

/-- Witness for C8 at a concrete unmapped row. -/
theorem C8_unmapped_handling_witness :
    map_custom_to_non (build_xref_map [("X", "X")]) " Y " = none
    ∧ (prep_zco41 [(⟨some 5, some 0, "SO1", " Y "⟩ : RawRow),
        ⟨some 2, none, "SO2", " Y "⟩] (build_xref_map [("X", "X")])).2.count " Y " = 1 :=
  ⟨by decide, (C8_unmapped_handling [⟨some 5, some 0, "SO1", " Y "⟩,
    ⟨some 2, none, "SO2", " Y "⟩] (build_xref_map [("X", "X")])).1
    ⟨some 5, some 0, "SO1", " Y "⟩ (by decide) (by decide)⟩

/-- C10: every row of the past-due COOIS report is classified solely from
the sign of its identifier's aggregate net availability — pass with zero
shortfall when the merged availability (0 when the identifier is missing
or unmapped) is non-negative, fail with shortfall equal to its absolute
value otherwise; the row's own requested quantity plays no role. -/
theorem C10_coois_classification (coois : List ZcoLine) (invAfter : List (String × ℚ))
    (xm : List (String × String)) (today : Int) (row : CooisOut)
    (hmem : row ∈ build_past_due_coois coois invAfter xm today) :
    (row.ok = true ↔ 0 ≤ (availLookup invAfter row.nonCustom).getD 0)
    ∧ row.shortage = (if 0 ≤ (availLookup invAfter row.nonCustom).getD 0 then 0
        else |(availLookup invAfter row.nonCustom).getD 0|)
    ∧ row.nota = (if 0 ≤ (availLookup invAfter row.nonCustom).getD 0 then Nota.suficiente
        else Nota.noSuficiente |(availLookup invAfter row.nonCustom).getD 0|) := by
  unfold build_past_due_coois at hmem
  rw [mem_ssort] at hmem
  rcases List.mem_map.mp hmem with ⟨p, _, hrow⟩
  subst hrow
  simp only [nota_result]
  by_cases h : (0:ℚ) ≤ (availLookup invAfter p.2).getD 0
  · simp [h]
  · simp [h]

/-- Witness for C10 at a concrete oversubscribed identifier. -/
theorem C10_coois_classification_witness :
    ((⟨"SO1", some 0, "A", some "X", 5, Nota.noSuficiente 2, false, 2⟩ : CooisOut)
        ∈ build_past_due_coois [⟨5, some 0, "SO1", "A", some "X"⟩] [("X", -2)]
          (build_xref_map [("A", "X")]) 1)
    ∧ (((⟨"SO1", some 0, "A", some "X", 5, Nota.noSuficiente 2, false, 2⟩ : CooisOut).ok
          = true)
        ↔ 0 ≤ (availLookup [("X", -2)]
            (⟨"SO1", some 0, "A", some "X", 5, Nota.noSuficiente 2,
              false, 2⟩ : CooisOut).nonCustom).getD 0) :=
  ⟨by decide, (C10_coois_classification [⟨5, some 0, "SO1", "A", some "X"⟩] [("X", -2)]
    (build_xref_map [("A", "X")]) 1 ⟨"SO1", some 0, "A", some "X", 5,
      Nota.noSuficiente 2, false, 2⟩ (by decide)).1⟩

theorem findIdx?_eq_some_of (p : ℚ → Bool) :
    ∀ (l : List ℚ) (i : Nat), i < l.length → p (l.getD i 0) = true →
      (∀ x ∈ l.take i, p x = false) → l.findIdx? p = some i
  | [], i, hi, _, _ => by simp at hi
  | r :: rs, 0, _, hp, _ => by
    have hr : p r = true := hp
    simp [List.findIdx?_cons, hr]
  | r :: rs, i + 1, hi, hp, hmin => by
    have hr : p r = false := by
      apply hmin r
      rw [List.take_succ_cons]
      exact List.mem_cons_self _ _
    simp only [List.findIdx?_cons, hr, Bool.false_eq_true, if_false, ite_false]
    rw [List.findIdx?_succ,
      findIdx?_eq_some_of p rs i (by simpa using hi) (by exact hp)
        (fun x hx => hmin x (by
          rw [List.take_succ_cons]
          exact List.mem_cons.mpr (Or.inr hx)))]
    rfl

/-- C9 (modelled from the spec, engine B having no source file): first-fit
preference — when some balance record's remaining quantity covers the
whole request, the allocator emits exactly one fully satisfied `matched`
result drawn from the first sufficient record in priority order, and only
that record is decremented, by exactly the requested quantity; the
splitting fallback is reached only when no single record suffices. -/
theorem C9_first_fit (recs : List ℚ) (q : ℚ) (i : Nat) (hi : i < recs.length)
    (hq : q ≤ recs.getD i 0)
    (hmin : ∀ x ∈ recs.take i, x < q) :
    fifoAllocate recs q
      = ([⟨some i, q, 0, AllocClass.matched⟩], recs.set i (recs.getD i 0 - q)) := by
  have hne : recs.isEmpty = false := by
    cases recs with
    | nil => simp at hi
    | cons a as => rfl
  have hfind : recs.findIdx? (fun r => decide (q ≤ r)) = some i :=
    findIdx?_eq_some_of _ recs i hi (by simpa using hq)
      (fun x hx => by simpa using not_le.mpr (hmin x hx))
  unfold fifoAllocate
  rw [hne, hfind]
  simp

/-- Witness for C9: the spec's own example — balances [5, 100] and a
request for 5 consume entirely from the first record. -/
theorem C9_first_fit_witness :
    ((5:ℚ) ≤ [(5:ℚ), 100].getD 0 0)
    ∧ fifoAllocate [(5:ℚ), 100] 5
      = ([⟨some 0, 5, 0, AllocClass.matched⟩],
          [(5:ℚ), 100].set 0 ([(5:ℚ), 100].getD 0 0 - 5)) :=
  ⟨by decide, C9_first_fit [5, 100] 5 0 (by decide) (by decide) (by decide)⟩

theorem faltSum_eq (ordersDf : List OrderOut) (linesDf : List LineOut) (id : String) :
    (((linesDf.filter (fun l =>
        statusOf ordersDf l.salesOrder == some false && decide (0 < l.shortage) &&
          l.nonCustom.isSome)).filter (fun l => l.nonCustom == some id)).map
      (fun l => l.shortage)).sum = faltTotal ordersDf linesDf id := by
  unfold faltTotal
  rw [filter_comm_aux]
  congr 1
  congr 1
  apply filter_congr_mem
  intro l _
  by_cases hi : (l.nonCustom == some id) = true
  · have hiS : l.nonCustom.isSome = true := by
      have h2 : l.nonCustom = some id := by simpa using hi
      rw [h2]
      rfl
    rw [hi, hiS]
    simp
  · have hi' : (l.nonCustom == some id) = false := by
      cases hb : (l.nonCustom == some id) with
      | true => exact absurd hb hi
      | false => rfl
    rw [hi']
    simp

theorem negSum_eq (invAfter : List (String × ℚ)) (id : String) :
    ((((invAfter.filter (fun p => decide (p.2 < 0))).map (fun p => (p.1, |p.2|))).filter
        (fun p => p.1 == id)).map (fun p => p.2)).sum = negTotal invAfter id := by
  rw [filter_of_map, List.map_map, filter_comm_aux]
  unfold negTotal
  rfl

theorem filter_keyMap_nodup :
    ∀ (ks : List String) (f : String → ℚ) (id : String), ks.Nodup →
      (ks.map (fun i => (i, f i))).filter (fun p => p.1 == id)
        = if id ∈ ks then [(id, f id)] else []
  | [], _, _, _ => by simp
  | k :: ks, f, id, hnd => by
    rcases List.nodup_cons.mp hnd with ⟨hk, hnd'⟩
    by_cases h : (k == id) = true
    · have hkid : k = id := by simpa using h
      subst hkid
      simp only [List.map_cons, List.filter_cons, h, if_true, ite_true]
      rw [filter_keyMap_nodup ks f k hnd', if_neg hk]
      simp [List.mem_cons]
    · have h' : (k == id) = false := by
        cases hb : (k == id) with
        | true => exact absurd hb h
        | false => rfl
      have hne : id ≠ k := fun hc => h (by simpa using hc.symm)
      simp only [List.map_cons, List.filter_cons, h', Bool.false_eq_true, if_false,
        ite_false]
      rw [filter_keyMap_nodup ks f id hnd']
      by_cases hmem : id ∈ ks
      · simp [hmem, List.mem_cons, hne]
      · simp [hmem, List.mem_cons, hne]

theorem faltTotal_nonneg (ordersDf : List OrderOut) (linesDf : List LineOut)
    (id : String) : 0 ≤ faltTotal ordersDf linesDf id := by
  unfold faltTotal
  apply List.sum_nonneg
  intro x hx
  rcases List.mem_map.mp hx with ⟨l, hl, rfl⟩
  have hpred := (List.mem_filter.mp hl).2
  rw [Bool.and_eq_true, Bool.and_eq_true] at hpred
  rcases hpred with ⟨⟨-, hsh⟩, -⟩
  exact le_of_lt (of_decide_eq_true hsh)

theorem negTotal_nonneg (invAfter : List (String × ℚ)) (id : String) :
    0 ≤ negTotal invAfter id := by
  unfold negTotal
  apply List.sum_nonneg
  intro x hx
  rcases List.mem_map.mp hx with ⟨p, -, rfl⟩
  exact abs_nonneg p.2

theorem build_inventario_necesito_eq (ordersDf : List OrderOut) (linesDf : List LineOut)
    (invAfter : List (String × ℚ)) :
    build_inventario_necesito ordersDf linesDf invAfter
      = ssort (fun a b => decide (b.2 ≤ a.2))
          ((outRows ordersDf linesDf invAfter).filter (fun p => decide (0 < p.2))) := rfl

theorem catSum_eq (ordersDf : List OrderOut) (linesDf : List LineOut)
    (invAfter : List (String × ℚ)) (id : String) :
    (((catRows ordersDf linesDf invAfter).filter (fun p => p.1 == id)).map
      (fun p => p.2)).sum = needTotal ordersDf linesDf invAfter id := by
  unfold catRows
  rw [List.filter_append, List.map_append, List.sum_append]
  have hnodupIds : (faltIdsOf ordersDf linesDf).Nodup :=
    ((ssort_perm strLE _).nodup_iff).mpr (nodup_firstDedup _)
  have h1 : (((faltGroupOf ordersDf linesDf).filter (fun p => p.1 == id)).map
      (fun p => p.2)).sum = faltTotal ordersDf linesDf id := by
    unfold faltGroupOf
    rw [filter_keyMap_nodup _ _ _ hnodupIds]
    by_cases hmem : id ∈ faltIdsOf ordersDf linesDf
    · rw [if_pos hmem]
      simp only [List.map_cons, List.map_nil, List.sum_cons, List.sum_nil, add_zero]
      exact faltSum_eq ordersDf linesDf id
    · rw [if_neg hmem]
      have hnil : linesDf.filter (fun l =>
          statusOf ordersDf l.salesOrder == some false && decide (0 < l.shortage) &&
            l.nonCustom == some id) = [] := by
        rw [List.filter_eq_nil_iff]
        intro l hl hpred
        apply hmem
        rw [Bool.and_eq_true, Bool.and_eq_true] at hpred
        rcases hpred with ⟨⟨hs, hsh⟩, hid⟩
        have hid' : l.nonCustom = some id := by simpa using hid
        unfold faltIdsOf
        rw [mem_ssort, mem_firstDedup]
        apply List.mem_filterMap.mpr
        refine ⟨l, ?_, hid'⟩
        unfold faltRows
        apply List.mem_filter.mpr
        refine ⟨hl, ?_⟩
        rw [Bool.and_eq_true, Bool.and_eq_true]
        refine ⟨⟨hs, hsh⟩, ?_⟩
        rw [hid']
        rfl
      unfold faltTotal
      rw [hnil]
      simp
  have h2 : (((negRows invAfter).filter (fun p => p.1 == id)).map (fun p => p.2)).sum
      = negTotal invAfter id := negSum_eq invAfter id
  rw [h1, h2]
  rfl

/-- C6: the shortage projection contains, for each identifier, exactly the
sum of (a) the positive per-line shortfalls of mapped lines of rejected
orders and (b) the absolute value of its negative base availability; only
identifiers with a strictly positive total appear, with that total as
value, and the rows are sorted descending by total. -/
theorem C6_shortage_projection (ordersDf : List OrderOut) (linesDf : List LineOut)
    (invAfter : List (String × ℚ)) :
    (∀ p ∈ build_inventario_necesito ordersDf linesDf invAfter,
        p.2 = needTotal ordersDf linesDf invAfter p.1 ∧ 0 < p.2)
    ∧ (∀ id : String, 0 < needTotal ordersDf linesDf invAfter id →
        (id, needTotal ordersDf linesDf invAfter id)
          ∈ build_inventario_necesito ordersDf linesDf invAfter)
    ∧ (build_inventario_necesito ordersDf linesDf invAfter).Pairwise
        (fun a b => b.2 ≤ a.2) := by
  rw [build_inventario_necesito_eq]
  refine ⟨?_, ?_, ?_⟩
  · intro p hp
    rw [mem_ssort, List.mem_filter] at hp
    obtain ⟨hpo, hppos⟩ := hp
    unfold outRows at hpo
    rcases List.mem_map.mp hpo with ⟨id, -, rfl⟩
    exact ⟨catSum_eq ordersDf linesDf invAfter id, of_decide_eq_true hppos⟩
  · intro id hpos
    rw [mem_ssort, List.mem_filter]
    have hmemKeys : id ∈ (catRows ordersDf linesDf invAfter).map (fun p => p.1) := by
      have hf := faltTotal_nonneg ordersDf linesDf id
      rcases lt_or_le 0 (faltTotal ordersDf linesDf id) with hfpos | hfle
      · have hne : linesDf.filter (fun l =>
            statusOf ordersDf l.salesOrder == some false && decide (0 < l.shortage) &&
              l.nonCustom == some id) ≠ [] := by
          intro hnil
          unfold faltTotal at hfpos
          rw [hnil] at hfpos
          simp at hfpos
        obtain ⟨l, hl⟩ := List.exists_mem_of_ne_nil _ hne
        have hl1 := (List.mem_filter.mp hl).1
        have hl2 := (List.mem_filter.mp hl).2
        rw [Bool.and_eq_true, Bool.and_eq_true] at hl2
        rcases hl2 with ⟨⟨hs, hsh⟩, hid⟩
        have hid' : l.nonCustom = some id := by simpa using hid
        have hidIn : id ∈ faltIdsOf ordersDf linesDf := by
          unfold faltIdsOf
          rw [mem_ssort, mem_firstDedup]
          apply List.mem_filterMap.mpr
          refine ⟨l, ?_, hid'⟩
          unfold faltRows
          apply List.mem_filter.mpr
          refine ⟨hl1, ?_⟩
          rw [Bool.and_eq_true, Bool.and_eq_true]
          refine ⟨⟨hs, hsh⟩, ?_⟩
          rw [hid']
          rfl
        unfold catRows
        rw [List.map_append]
        apply List.mem_append.mpr
        left
        unfold faltGroupOf
        rw [List.map_map]
        exact List.mem_map.mpr ⟨id, hidIn, rfl⟩
      · have hf0 : faltTotal ordersDf linesDf id = 0 := le_antisymm hfle hf
        have hnpos : 0 < negTotal invAfter id := by
          unfold needTotal at hpos
          rw [hf0, zero_add] at hpos
          exact hpos
        have hne : invAfter.filter (fun p => p.1 == id && decide (p.2 < 0)) ≠ [] := by
          intro hnil
          unfold negTotal at hnpos
          rw [hnil] at hnpos
          simp at hnpos
        obtain ⟨p, hp⟩ := List.exists_mem_of_ne_nil _ hne
        have hp1 := (List.mem_filter.mp hp).1
        have hp2 := (List.mem_filter.mp hp).2
        rw [Bool.and_eq_true] at hp2
        rcases hp2 with ⟨hpid, hpneg⟩
        have hpid' : p.1 = id := by simpa using hpid
        unfold catRows
        rw [List.map_append]
        apply List.mem_append.mpr
        right
        unfold negRows
        rw [List.map_map]
        apply List.mem_map.mpr
        refine ⟨p, ?_, by simpa using hpid'⟩
        exact List.mem_filter.mpr ⟨hp1, hpneg⟩
    constructor
    · unfold outRows
      have hrw : (id, needTotal ordersDf linesDf invAfter id)
          = (fun i => (i, (((catRows ordersDf linesDf invAfter).filter
              (fun p => p.1 == i)).map (fun p => p.2)).sum)) id :=
        congrArg (Prod.mk id) (catSum_eq ordersDf linesDf invAfter id).symm
      rw [hrw]
      apply List.mem_map_of_mem
      rw [mem_ssort, mem_firstDedup]
      exact hmemKeys
    · simpa using hpos
  · apply List.Pairwise.imp (fun h => of_decide_eq_true h)
    apply pairwise_ssort
    · intro a b
      rcases le_total b.2 a.2 with h | h
      · exact Or.inl (decide_eq_true h)
      · exact Or.inr (decide_eq_true h)
    · intro a b c h1 h2
      exact decide_eq_true (le_trans (of_decide_eq_true h2) (of_decide_eq_true h1))

/-- Witness for C6: an oversold identifier appears with its total. -/
theorem C6_shortage_projection_witness :
    (0 < needTotal [] [] [("X", (-2:ℚ))] "X")
    ∧ ("X", needTotal [] [] [("X", (-2:ℚ))] "X")
        ∈ build_inventario_necesito [] [] [("X", (-2:ℚ))] :=
  ⟨by decide, (C6_shortage_projection [] [] [("X", -2)]).2.1 "X" (by decide)⟩

end MaquilaSSE
